import Mathlib

/-!
Verification of the rectangle-packing engine in `src/potpack2.rs` of the
`resprite` repository.

The engine works on `f64` values.  We embed it shallowly over `ℚ` with exact
arithmetic: every `f64` operation the algorithm performs on well-formed
(finite) data — addition, subtraction, `max`, comparison — is exact real
arithmetic, which `ℚ` models faithfully as long as no rounding occurs.
The literal `0.95` is read as the real number `19/20`, `f64::MAX` as the
exact rational `(2^53 - 1) * 2^971`, and the `f64::NAN` sentinel that
`Layout::new` stores into the `x`/`y` fields of a not-yet-placed box is
modelled as `none : Option ℚ`.  The NaN-propagating comparator passed to
`sort_unstable_by` is modelled separately (`cmpDesc`, `sortOrd` below) with
heights in `Option ℚ`, `none` playing NaN.
-/

namespace Potpack

open List (Perm)

/-- `f64::MAX` exactly: `(2^53 - 1) * 2^971`, written as a decimal literal
so that the kernel can evaluate arithmetic on it; `f64Max_eq_pow` checks the
value. -/
def f64Max : ℚ := 179769313486231570814527423731704356798070567525844996598917476803157260780028538760589558632766878171540458953514382464234321326889464182768467546703537516986049910576551282076245490090389328944075868508455133942304583236903222948165808559332123348274797826204144723168738177180919299881250404026184124858368

theorem f64Max_eq_pow : f64Max = (2 ^ 53 - 1) * 2 ^ 971 := by
  unfold f64Max
  norm_num

/-- `pub struct Box` from potpack2.rs.  `x`/`y` are `none` while they still
hold the `f64::NAN` sentinel written by `Layout::new`. -/
structure Box where
  id : ℕ
  w : ℚ
  h : ℚ
  x : Option ℚ
  y : Option ℚ
deriving DecidableEq

/-- `struct Space` from potpack2.rs (field order as in the source). -/
structure Space where
  w : ℚ
  h : ℚ
  x : ℚ
  y : ℚ
deriving DecidableEq

/-- `pub struct Layout` from potpack2.rs. -/
structure Layout where
  width : ℚ
  height : ℚ
  fill_ratio : ℚ
  items : List Box
deriving DecidableEq

/-- `let total_area: f64 = boxes.iter().map(|b| b.h * b.w).sum();`
(written by structural recursion; `totalArea_eq_sum` states it equals the
`List.sum` of the mapped areas). -/
def totalArea : List Box → ℚ
  | [] => 0
  | b :: rest => b.h * b.w + totalArea rest

theorem totalArea_eq_sum (boxes : List Box) :
    totalArea boxes = (boxes.map fun b => b.h * b.w).sum := by
  induction boxes with
  | nil => rfl
  | cons b rest ih => simp [totalArea, ih]

/-- `boxes.iter().map(|b| b.w).fold(f64::NEG_INFINITY, f64::max)`.
`none` plays `NEG_INFINITY` (for which `f64::max` returns the other
argument). -/
def maxWidth (boxes : List Box) : Option ℚ :=
  boxes.foldl (fun m b =>
    match m with
    | none => some b.w
    | some q => some (max q b.w)) none

/-- `x.sqrt().ceil()` for an exact nonnegative `x`: the least natural `n`
with `x ≤ n^2`.  (Computed from `Nat.sqrt` of the ceiling of `x`.) -/
def ceilSqrt (q : ℚ) : ℕ :=
  let n := Nat.sqrt ⌈q⌉.toNat
  if (n : ℚ) * n < q then n + 1 else n

/-- `let start_width = (total_area / 0.95).sqrt().ceil().max(max_width);`
When `total_area < 0` the `f64` square root is NaN, its ceiling is NaN, and
`f64::max(NaN, max_width)` returns `max_width`; when the fold over widths is
still at `NEG_INFINITY` (no boxes) `f64::max` returns the ceiling. -/
def startWidth (boxes : List Box) : ℚ :=
  let ta := totalArea boxes
  match maxWidth boxes with
  | none => (ceilSqrt (ta / (19 / 20)) : ℚ)
  | some mw => if ta < 0 then mw else max ((ceilSqrt (ta / (19 / 20)) : ℕ) : ℚ) mw

/-- The sort `boxes.sort_unstable_by(|a, b| b.h.partial_cmp(&a.h).unwrap())`
on NaN-free heights: a stable sort by height, descending.  (Rust's
`sort_unstable_by` runs a plain insertion sort on small slices, which keeps
the original order of equal keys; for larger slices the order of ties is
unspecified, and no claim below depends on it.)  `insertDesc` puts `b`
before the first element whose height is `≤ b.h`. -/
def insertDesc (b : Box) : List Box → List Box
  | [] => [b]
  | c :: rest => if c.h ≤ b.h then b :: c :: rest else c :: insertDesc b rest

/-- Insertion sort by height descending, stable; see `insertDesc`. -/
def sortDesc : List Box → List Box
  | [] => []
  | b :: rest => insertDesc b (sortDesc rest)

/-- The state the placement loop of `from_boxes` threads: the free-space
vector and the running `width`/`height` maxima. -/
structure PackState where
  spaces : List Space
  width : ℚ
  height : ℚ
deriving DecidableEq

/-- `if b.w > space.w || b.h > space.h { continue; }`: a space accommodates
a box when neither dimension of the box exceeds it. -/
def fits (b : Box) (s : Space) : Bool :=
  !(s.w < b.w || s.h < b.h)

/-- `for (space_idx, space) in spaces.iter_mut().enumerate().rev()`: the
index the loop stops at, i.e. the greatest index whose space fits `b`. -/
def lastFitIdx (b : Box) : List Space → Option ℕ
  | [] => none
  | s :: rest =>
    match lastFitIdx b rest with
    | some j => some (j + 1)
    | none => if fits b s then some 0 else none

/-- `Vec::swap_remove(i)`: replace the element at `i` with the last element
and pop.  (Only used with `i < l.length`.) -/
def swapRemove {α : Type _} (l : List α) (i : ℕ) : List α :=
  match l.getLast? with
  | none => l
  | some a => (l.set i a).dropLast

/-- Placeholder for the (never used) out-of-range `getD` default. -/
def defaultSpace : Space := { w := 0, h := 0, x := 0, y := 0 }

/-- One iteration of the outer placement loop of `from_boxes`: scan the
spaces backwards for the first fit, place the box at the space's corner,
update the running extents, and resolve the space (remove / shrink / split,
the right remainder being pushed to the end). -/
def placeBox (st : PackState) (b : Box) : PackState × Box :=
  match lastFitIdx b st.spaces with
  | none => (st, b)
  | some i =>
    let s := st.spaces.getD i defaultSpace
    let b' : Box := { b with x := some s.x, y := some s.y }
    let height' := max st.height (s.y + b.h)
    let width' := max st.width (s.x + b.w)
    let spaces' :=
      if b.w = s.w ∧ b.h = s.h then
        swapRemove st.spaces i
      else if b.h = s.h then
        st.spaces.set i { w := s.w - b.w, h := s.h, x := s.x + b.w, y := s.y }
      else if b.w = s.w then
        st.spaces.set i { w := s.w, h := s.h - b.h, x := s.x, y := s.y + b.h }
      else
        (st.spaces.set i { w := s.w, h := s.h - b.h, x := s.x, y := s.y + b.h }) ++
          [{ w := s.w - b.w, h := b.h, x := s.x + b.w, y := s.y }]
    ({ spaces := spaces', width := width', height := height' }, b')

/-- The whole placement loop, returning the final state and the boxes (in
placement order, as in the mutated `boxes` vector). -/
def packAll : PackState → List Box → PackState × List Box
  | st, [] => (st, [])
  | st, b :: rest =>
    let p := placeBox st b
    let q := packAll p.1 rest
    (q.1, p.2 :: q.2)

/-- `Layout::from_boxes` from potpack2.rs. -/
def from_boxes (boxes : List Box) : Layout :=
  let ta := totalArea boxes
  let sorted := sortDesc boxes
  let st0 : PackState :=
    { spaces := [{ w := startWidth boxes, h := f64Max, x := 0, y := 0 }]
      width := 0
      height := 0 }
  let r := packAll st0 sorted
  let fill := if r.1.width ≠ 0 ∧ r.1.height ≠ 0 then ta / (r.1.width * r.1.height) else 1
  { width := r.1.width, height := r.1.height, fill_ratio := fill, items := r.2 }

/-- `Layout::new`: enumerate the items, keep their dimensions, and write the
NaN sentinel (here `none`) into the coordinates. -/
def Layout.new (items : List (ℚ × ℚ)) : Layout :=
  from_boxes (items.enum.map fun p =>
    { id := p.1, w := p.2.1, h := p.2.2, x := none, y := none })

/-! ### Specification of `ceilSqrt` -/

theorem ceilSqrt_sq_ge (q : ℚ) (hq : 0 ≤ q) :
    q ≤ (ceilSqrt q : ℚ) * (ceilSqrt q : ℚ) := by
  unfold ceilSqrt
  set n := Nat.sqrt ⌈q⌉.toNat with hn
  by_cases h : (n : ℚ) * n < q
  · simp only [h, if_true]
    have h1 : (⌈q⌉.toNat : ℚ) < ((n + 1 : ℕ) : ℚ) * ((n + 1 : ℕ) : ℚ) := by
      have := Nat.lt_succ_sqrt ⌈q⌉.toNat
      rw [hn]
      exact_mod_cast this
    have h2 : q ≤ (⌈q⌉.toNat : ℚ) := by
      have h3 : (⌈q⌉ : ℚ) = ((⌈q⌉.toNat : ℤ) : ℚ) := by
        rw [Int.toNat_of_nonneg (Int.ceil_nonneg hq)]
      have h4 := Int.le_ceil q
      rw [h3] at h4
      exact_mod_cast h4
    exact le_of_lt (lt_of_le_of_lt h2 h1)
  · simp only [h, if_false]
    exact le_of_not_lt h

theorem ceilSqrt_pred_sq_lt (q : ℚ) (hq : 0 < q) :
    ((ceilSqrt q : ℚ) - 1) * ((ceilSqrt q : ℚ) - 1) < q := by
  unfold ceilSqrt
  set n := Nat.sqrt ⌈q⌉.toNat with hn
  by_cases h : (n : ℚ) * n < q
  · simp only [h, if_true]
    have e : ((n + 1 : ℕ) : ℚ) - 1 = (n : ℚ) := by push_cast; ring
    rw [e]
    exact h
  · simp only [h, if_false]
    have hle : q ≤ (n : ℚ) * n := le_of_not_lt h
    have hn0 : 0 < n := by
      rcases Nat.eq_zero_or_pos n with h0 | h0
      · exfalso; rw [h0] at hle; push_cast at hle; linarith
      · exact h0
    have hm : (n : ℚ) * n ≤ (⌈q⌉.toNat : ℚ) := by
      have := Nat.sqrt_le ⌈q⌉.toNat
      rw [hn]; exact_mod_cast this
    have hql : (⌈q⌉.toNat : ℚ) < q + 1 := by
      have h3 : (⌈q⌉.toNat : ℤ) = ⌈q⌉ := Int.toNat_of_nonneg (Int.ceil_nonneg hq.le)
      have h4 : ((⌈q⌉ : ℤ) : ℚ) < q + 1 := Int.ceil_lt_add_one q
      rw [← h3] at h4
      exact_mod_cast h4
  -- n² < q + 1 together with (n-1)² ≥ q would force n < 1
    by_contra hcon
    push_neg at hcon
    have h1 : (1 : ℚ) ≤ (n : ℚ) := by exact_mod_cast hn0
    nlinarith [hcon, hm, hql]

theorem ceilSqrt_unique (q : ℚ) (n : ℕ) (hq : 0 < q)
    (h1 : q ≤ (n : ℚ) * n) (h2 : ((n : ℚ) - 1) * ((n : ℚ) - 1) < q) :
    ceilSqrt q = n := by
  have ha := ceilSqrt_sq_ge q hq.le
  have hb := ceilSqrt_pred_sq_lt q hq
  set c := ceilSqrt q with hc
  have hcn : c ≤ n := by
    by_contra hlt
    push_neg at hlt
    have : (n : ℚ) ≤ (c : ℚ) - 1 := by
      have : (n : ℚ) + 1 ≤ (c : ℚ) := by exact_mod_cast hlt
      linarith
    have hn0 : (0 : ℚ) ≤ (n : ℚ) := by positivity
    nlinarith [hb, h1]
  have hnc : n ≤ c := by
    by_contra hlt
    push_neg at hlt
    have : (c : ℚ) ≤ (n : ℚ) - 1 := by
      have : (c : ℚ) + 1 ≤ (n : ℚ) := by exact_mod_cast hlt
      linarith
    have hc0 : (0 : ℚ) ≤ (c : ℚ) := by positivity
    nlinarith [ha, h2]
  omega

/-! ### The placement loop preserves identity, dimensions, order-as-multiset -/

/-- The caller-visible identity and dimensions of a box. -/
def proj (b : Box) : ℕ × ℚ × ℚ := (b.id, b.w, b.h)

theorem placeBox_proj (st : PackState) (b : Box) : proj (placeBox st b).2 = proj b := by
  unfold placeBox
  cases lastFitIdx b st.spaces <;> rfl

theorem packAll_proj (st : PackState) (l : List Box) :
    ((packAll st l).2).map proj = l.map proj := by
  induction l generalizing st with
  | nil => rfl
  | cons b rest ih =>
    simp only [packAll, List.map_cons]
    rw [placeBox_proj, ih]

theorem insertDesc_perm (b : Box) (l : List Box) : Perm (insertDesc b l) (b :: l) := by
  induction l with
  | nil => exact List.Perm.refl _
  | cons c rest ih =>
    unfold insertDesc
    by_cases h : c.h ≤ b.h
    · rw [if_pos h]
    · rw [if_neg h]
      exact (ih.cons c).trans (List.Perm.swap b c rest)

theorem sortDesc_perm (l : List Box) : Perm (sortDesc l) l := by
  induction l with
  | nil => exact List.Perm.refl _
  | cons b rest ih =>
    unfold sortDesc
    exact (insertDesc_perm b (sortDesc rest)).trans (ih.cons b)

theorem from_boxes_proj_perm (bs : List Box) :
    Perm ((from_boxes bs).items.map proj) (bs.map proj) := by
  have h : (from_boxes bs).items =
      (packAll { spaces := [{ w := startWidth bs, h := f64Max, x := 0, y := 0 }],
                 width := 0, height := 0 } (sortDesc bs)).2 := rfl
  rw [h, packAll_proj]
  exact (sortDesc_perm bs).map proj

/-- **C3.** Completeness and identity preservation: the output has one box
per input item, carrying back the original index with the input's exact
width and height; every input id occurs exactly once (the ids form a
permutation of `range n`), and the total area is preserved. -/
theorem completeness_ids_dims_preserved (items : List (ℚ × ℚ)) :
    Perm ((Layout.new items).items.map fun b => (b.id, b.w, b.h))
      (items.enum.map fun p => (p.1, p.2.1, p.2.2)) ∧
    (Layout.new items).items.length = items.length ∧
    Perm ((Layout.new items).items.map fun b => b.id) (List.range items.length) ∧
    ((Layout.new items).items.map fun b => b.w * b.h).sum =
      (items.map fun p => p.1 * p.2).sum := by
  have hp := from_boxes_proj_perm (items.enum.map fun p =>
    { id := p.1, w := p.2.1, h := p.2.2, x := none, y := none })
  have hB : ((items.enum.map fun p =>
      ({ id := p.1, w := p.2.1, h := p.2.2, x := none, y := none } : Box)).map proj) =
      items.enum.map fun p => (p.1, p.2.1, p.2.2) := by
    rw [List.map_map]; rfl
  rw [hB] at hp
  have hp2 : Perm ((Layout.new items).items.map fun b => (b.id, b.w, b.h))
      (items.enum.map fun p => (p.1, p.2.1, p.2.2)) := hp
  clear hp
  have hp := hp2
  refine ⟨hp, ?_, ?_, ?_⟩
  · have := hp.length_eq
    simpa using this
  · have h1 := hp.map Prod.fst
    have e1 : (((Layout.new items).items.map fun b => (b.id, b.w, b.h)).map Prod.fst) =
        (Layout.new items).items.map fun b => b.id := by rw [List.map_map]; rfl
    have e2 : ((items.enum.map fun p => (p.1, p.2.1, p.2.2)).map Prod.fst) =
        List.range items.length := by
      rw [List.map_map]
      show items.enum.map Prod.fst = List.range items.length
      simp
    rw [e1, e2] at h1
    exact h1
  · have h1 := (hp.map fun t : ℕ × ℚ × ℚ => t.2.1 * t.2.2).sum_eq
    have e1 : (((Layout.new items).items.map fun b => (b.id, b.w, b.h)).map
        fun t : ℕ × ℚ × ℚ => t.2.1 * t.2.2) =
        (Layout.new items).items.map fun b => b.w * b.h := by rw [List.map_map]; rfl
    have e2 : ((items.enum.map fun p => (p.1, p.2.1, p.2.2)).map
        fun t : ℕ × ℚ × ℚ => t.2.1 * t.2.2) =
        items.map fun p => p.1 * p.2 := by
      rw [List.map_map]
      have e3 : (items.enum.map fun p => p.2.1 * p.2.2) =
          (items.enum.map Prod.snd).map fun q : ℚ × ℚ => q.1 * q.2 := by
        rw [List.map_map]; rfl
      have e4 : items.enum.map Prod.snd = items := by simp
      rw [show ((fun t : ℕ × ℚ × ℚ => t.2.1 * t.2.2) ∘ fun p : ℕ × ℚ × ℚ =>
        (p.1, p.2.1, p.2.2)) = fun p : ℕ × ℚ × ℚ => p.2.1 * p.2.2 from rfl]
      rw [e3, e4]
    rw [e1, e2] at h1
    exact h1

/-- **C8.** The empty input is a defined success: zero-size layout with fill
ratio `1.0` and no items. -/
theorem empty_input_layout :
    Layout.new [] = { width := 0, height := 0, fill_ratio := 1, items := [] } := by
  decide

/-! ### Decomposition helpers for list surgery at an index -/

theorem getElem?_decomp {α : Type _} {l : List α} {i : ℕ} {s : α} (h : l[i]? = some s) :
    ∃ u v, l = u ++ s :: v ∧ u.length = i := by
  induction l generalizing i with
  | nil => simp at h
  | cons a rest ih =>
    cases i with
    | zero =>
      simp only [List.getElem?_cons_zero, Option.some_inj] at h
      exact ⟨[], rest, by rw [h]; rfl, rfl⟩
    | succ k =>
      simp only [List.getElem?_cons_succ] at h
      obtain ⟨u, v, he, hl⟩ := ih h
      exact ⟨a :: u, v, by rw [he]; rfl, by simp [hl]⟩

theorem set_decomp {α : Type _} (u v : List α) (x p : α) :
    (u ++ x :: v).set u.length p = u ++ p :: v := by
  induction u with
  | nil => rfl
  | cons a u ih => simp [List.set, ih]

theorem eraseIdx_decomp {α : Type _} (u v : List α) (x : α) :
    (u ++ x :: v).eraseIdx u.length = u ++ v := by
  induction u with
  | nil => rfl
  | cons a u ih => simp [List.eraseIdx, ih]

theorem getElem?_decomp_self {α : Type _} (u v : List α) (x : α) :
    (u ++ x :: v)[u.length]? = some x := by
  rw [List.getElem?_append_right (le_refl u.length)]
  simp

theorem swapRemove_perm {α : Type _} (u v : List α) (x : α) :
    Perm (swapRemove (u ++ x :: v) u.length) (u ++ v) := by
  rcases List.eq_nil_or_concat v with hv | ⟨v', a, hv⟩
  · subst hv
    have h0 : swapRemove (u ++ [x]) u.length = ((u ++ [x]).set u.length x).dropLast := by
      unfold swapRemove
      rw [List.getLast?_concat]
    rw [h0, show (u ++ [x]).set u.length x = u ++ [x] from set_decomp u [] x x,
      List.dropLast_concat]
    simp
  · subst hv
    have h1 : u ++ x :: v'.concat a = (u ++ x :: v') ++ [a] := by simp
    rw [h1]
    have h0 : swapRemove ((u ++ x :: v') ++ [a]) u.length =
        (((u ++ x :: v') ++ [a]).set u.length a).dropLast := by
      unfold swapRemove
      rw [List.getLast?_concat]
    have h2 : ((u ++ x :: v') ++ [a]).set u.length a = (u ++ a :: v') ++ [a] := by
      have e1 : (u ++ x :: v') ++ [a] = u ++ x :: (v' ++ [a]) := by simp
      have e2 : (u ++ a :: v') ++ [a] = u ++ a :: (v' ++ [a]) := by simp
      rw [e1, e2]
      exact set_decomp u (v' ++ [a]) x a
    rw [h0, h2, List.dropLast_concat]
    have h4 : Perm (u ++ a :: v') (u ++ (v' ++ [a])) :=
      List.Perm.append_left u ((List.perm_append_singleton a v').symm)
    simpa using h4

/-! ### Specification of the backwards scan `lastFitIdx` -/

theorem lastFitIdx_lt (b : Box) (l : List Space) (i : ℕ) (h : lastFitIdx b l = some i) :
    i < l.length := by
  induction l generalizing i with
  | nil => simp [lastFitIdx] at h
  | cons s rest ih =>
    unfold lastFitIdx at h
    cases hfi : lastFitIdx b rest with
    | some j =>
      rw [hfi] at h
      simp only [Option.some_inj] at h
      subst h
      simpa using Nat.succ_lt_succ (ih j hfi)
    | none =>
      rw [hfi] at h
      by_cases hf : fits b s
      · rw [if_pos hf] at h
        simp only [Option.some_inj] at h
        subst h
        simp
      · rw [if_neg hf] at h
        simp at h

theorem lastFitIdx_fits (b : Box) (l : List Space) (i : ℕ) (h : lastFitIdx b l = some i) :
    ∃ s, l[i]? = some s ∧ fits b s = true := by
  induction l generalizing i with
  | nil => simp [lastFitIdx] at h
  | cons s rest ih =>
    unfold lastFitIdx at h
    cases hfi : lastFitIdx b rest with
    | some j =>
      rw [hfi] at h
      simp only [Option.some_inj] at h
      subst h
      obtain ⟨s', hs', hf'⟩ := ih j hfi
      exact ⟨s', by simpa using hs', hf'⟩
    | none =>
      rw [hfi] at h
      by_cases hf : fits b s
      · rw [if_pos hf] at h
        simp only [Option.some_inj] at h
        subst h
        exact ⟨s, by simp, hf⟩
      · rw [if_neg hf] at h
        simp at h

theorem lastFitIdx_all_fail (b : Box) (l : List Space) (h : lastFitIdx b l = none) :
    ∀ s ∈ l, fits b s = false := by
  induction l with
  | nil => intro s hs; simp at hs
  | cons c rest ih =>
    unfold lastFitIdx at h
    cases hfi : lastFitIdx b rest with
    | some j => rw [hfi] at h; simp at h
    | none =>
      rw [hfi] at h
      by_cases hf : fits b c
      · rw [if_pos hf] at h; simp at h
      · rw [if_neg hf] at h
        intro s hs
        rcases List.mem_cons.mp hs with rfl | hmem
        · simpa using hf
        · exact ih hfi s hmem

theorem lastFitIdx_maximal (b : Box) (l : List Space) (i : ℕ)
    (h : lastFitIdx b l = some i) :
    ∀ j s', i < j → l[j]? = some s' → fits b s' = false := by
  induction l generalizing i with
  | nil => simp [lastFitIdx] at h
  | cons s rest ih =>
    unfold lastFitIdx at h
    intro j s' hij hjs
    cases hfi : lastFitIdx b rest with
    | some k =>
      rw [hfi] at h
      simp only [Option.some_inj] at h
      subst h
      cases j with
      | zero => omega
      | succ m =>
        simp only [List.getElem?_cons_succ] at hjs
        exact ih k hfi m s' (by omega) hjs
    | none =>
      rw [hfi] at h
      by_cases hf : fits b s
      · rw [if_pos hf] at h
        simp only [Option.some_inj] at h
        subst h
        cases j with
        | zero => omega
        | succ m =>
          simp only [List.getElem?_cons_succ] at hjs
          exact lastFitIdx_all_fail b rest hfi s' (List.getElem?_mem hjs)
      · rw [if_neg hf] at h
        simp at h

theorem lastFitIdx_isSome_of (b : Box) (l : List Space) (s : Space)
    (hs : s ∈ l) (hf : fits b s = true) : (lastFitIdx b l).isSome := by
  induction l with
  | nil => simp at hs
  | cons c rest ih =>
    unfold lastFitIdx
    cases hfi : lastFitIdx b rest with
    | some j => simp
    | none =>
      rcases List.mem_cons.mp hs with rfl | hmem
      · rw [if_pos hf]; simp
      · have := ih hmem
        rw [hfi] at this
        simp at this

theorem lastFitIdx_append_last (b : Box) (l : List Space) (s : Space)
    (hf : fits b s = true) : lastFitIdx b (l ++ [s]) = some l.length := by
  induction l with
  | nil => simp [lastFitIdx, hf]
  | cons c rest ih =>
    show lastFitIdx b (c :: (rest ++ [s])) = some (rest.length + 1)
    unfold lastFitIdx
    rw [ih]

/-! ### Characterization of one placement step -/

theorem placeBox_no_fit (st : PackState) (b : Box)
    (h : lastFitIdx b st.spaces = none) : placeBox st b = (st, b) := by
  unfold placeBox
  rw [h]

theorem placeBox_eq (st : PackState) (b : Box) (i : ℕ) (s : Space)
    (hfi : lastFitIdx b st.spaces = some i) (hs : st.spaces[i]? = some s) :
    placeBox st b =
      ({ spaces :=
          if b.w = s.w ∧ b.h = s.h then swapRemove st.spaces i
          else if b.h = s.h then
            st.spaces.set i { w := s.w - b.w, h := s.h, x := s.x + b.w, y := s.y }
          else if b.w = s.w then
            st.spaces.set i { w := s.w, h := s.h - b.h, x := s.x, y := s.y + b.h }
          else
            (st.spaces.set i { w := s.w, h := s.h - b.h, x := s.x, y := s.y + b.h }) ++
              [{ w := s.w - b.w, h := b.h, x := s.x + b.w, y := s.y }],
         width := max st.width (s.x + b.w),
         height := max st.height (s.y + b.h) },
       { b with x := some s.x, y := some s.y }) := by
  have hgd : st.spaces.getD i defaultSpace = s := by simp [List.getD, hs]
  unfold placeBox
  rw [hfi]
  simp only [hgd]

/-- **C5.** The free-space list is scanned from the most recently added
space (the end of the vector) to the oldest, and the first space in that
scan order accommodating the item is chosen: the chosen index `i` fits and
every later index fails.  On an exact two-dimensional match the space is
removed from the free list (`swap_remove`, i.e. the new list is a
permutation of the list with entry `i` erased); when neither dimension
matches, the right remainder is appended at the end of the free list, where
the backwards scan finds it first whenever it fits the next item. -/
theorem scan_order_and_split_policy (st : PackState) (b : Box) (i : ℕ) (s : Space)
    (hfi : lastFitIdx b st.spaces = some i) (hs : st.spaces[i]? = some s) :
    (fits b s = true ∧ ∀ j s', i < j → st.spaces[j]? = some s' → fits b s' = false) ∧
    (b.w = s.w ∧ b.h = s.h →
      Perm ((placeBox st b).1.spaces) (st.spaces.eraseIdx i)) ∧
    (¬b.w = s.w ∧ ¬b.h = s.h →
      (placeBox st b).1.spaces =
        (st.spaces.set i { w := s.w, h := s.h - b.h, x := s.x, y := s.y + b.h }) ++
          [{ w := s.w - b.w, h := b.h, x := s.x + b.w, y := s.y }] ∧
      ∀ c : Box, fits c { w := s.w - b.w, h := b.h, x := s.x + b.w, y := s.y } = true →
        lastFitIdx c ((placeBox st b).1.spaces) =
          some ((placeBox st b).1.spaces.length - 1)) := by
  obtain ⟨s0, hs0, hf0⟩ := lastFitIdx_fits b st.spaces i hfi
  have hss : s0 = s := by rw [hs0] at hs; exact Option.some_inj.mp hs
  subst hss
  refine ⟨⟨hf0, lastFitIdx_maximal b st.spaces i hfi⟩, ?_, ?_⟩
  · intro hmatch
    rw [placeBox_eq st b i s0 hfi hs]
    simp only [if_pos hmatch]
    obtain ⟨u, v, he, hl⟩ := getElem?_decomp hs
    rw [he, ← hl, eraseIdx_decomp]
    exact swapRemove_perm u v s0
  · intro ⟨hw, hh⟩
    rw [placeBox_eq st b i s0 hfi hs]
    have hcond : ¬(b.w = s0.w ∧ b.h = s0.h) := fun hc => hw hc.1
    simp only [if_neg hcond, if_neg hh, if_neg hw]
    refine ⟨trivial, ?_⟩
    intro c hc
    rw [lastFitIdx_append_last c _ _ hc]
    simp

/-- A witness run of `scan_order_and_split_policy`: one space, a smaller
box; the scan chooses index 0 and all hypotheses are concrete. -/
theorem scan_order_and_split_policy_witness :
    lastFitIdx { id := 7, w := 2, h := 3, x := none, y := none }
      (PackState.spaces { spaces := [{ w := 5, h := 5, x := 0, y := 0 }], width := 0, height := 0 }) = some 0 ∧
    (PackState.spaces { spaces := [{ w := 5, h := 5, x := 0, y := 0 }], width := 0, height := 0 })[0]? =
      some { w := 5, h := 5, x := 0, y := 0 } ∧
    fits { id := 7, w := 2, h := 3, x := none, y := none } { w := 5, h := 5, x := 0, y := 0 } = true :=
  ⟨by decide, by decide,
    (scan_order_and_split_policy
      { spaces := [{ w := 5, h := 5, x := 0, y := 0 }], width := 0, height := 0 }
      { id := 7, w := 2, h := 3, x := none, y := none } 0
      { w := 5, h := 5, x := 0, y := 0 } (by decide) (by decide)).1.1⟩

/-- **C4.** (Evidence of the latent defect.)  At the finite, non-negative
input `[(0.0, f64::MAX), (0.0, f64::MAX)]` the single free space is
consumed exactly by the first item, no free space accommodates the second,
and `Layout::new` — whose return type carries no error channel — returns a
normal `Layout` in which that item still holds the NaN sentinel
coordinates instead of surfacing an `Unplaceable` failure. -/
theorem no_fit_yields_silent_nan_not_error :
    (∀ p ∈ [((0 : ℚ), f64Max), ((0 : ℚ), f64Max)],
      0 ≤ p.1 ∧ p.1 ≤ f64Max ∧ 0 ≤ p.2 ∧ p.2 ≤ f64Max) ∧
    (Layout.new [((0 : ℚ), f64Max), ((0 : ℚ), f64Max)]).items.length = 2 ∧
    ((Layout.new [((0 : ℚ), f64Max), ((0 : ℚ), f64Max)]).items.filter
      fun b => b.x.isNone && b.y.isNone).length = 1 := by
  refine ⟨?_, ?_, ?_⟩
  · intro p hp
    rcases List.mem_cons.mp hp with rfl | hp2
    · norm_num [f64Max]
    · rcases List.mem_cons.mp hp2 with rfl | hp3
      · norm_num [f64Max]
      · simp at hp3
  · norm_num [Layout.new, from_boxes, sortDesc, insertDesc, packAll, placeBox, lastFitIdx,
      fits, startWidth, totalArea, maxWidth, ceilSqrt, swapRemove, defaultSpace, List.enum]
  · norm_num [Layout.new, from_boxes, sortDesc, insertDesc, packAll, placeBox, lastFitIdx,
      fits, startWidth, totalArea, maxWidth, ceilSqrt, swapRemove, defaultSpace, List.enum]

/-- **C9, counterexample.**  The finite, non-negative input
`[(0.0, f64::MAX), (0.0, f64::MAX)]` leaves the second item unplaced: the
no-fitting-space branch is reachable and a returned box retains the NaN
sentinel coordinates. -/
theorem unplaceable_reachable_counterexample :
    (∀ p ∈ [((0 : ℚ), f64Max), ((0 : ℚ), f64Max)],
      0 ≤ p.1 ∧ p.1 ≤ f64Max ∧ 0 ≤ p.2 ∧ p.2 ≤ f64Max) ∧
    ¬(∀ b ∈ (Layout.new [((0 : ℚ), f64Max), ((0 : ℚ), f64Max)]).items,
        b.x.isSome ∧ b.y.isSome) := by
  constructor
  · intro p hp
    rcases List.mem_cons.mp hp with rfl | hp2
    · norm_num [f64Max]
    · rcases List.mem_cons.mp hp2 with rfl | hp3
      · norm_num [f64Max]
      · simp at hp3
  · norm_num [Layout.new, from_boxes, sortDesc, insertDesc, packAll, placeBox, lastFitIdx,
      fits, startWidth, totalArea, maxWidth, ceilSqrt, swapRemove, defaultSpace, List.enum]

/-! ### The NaN-propagating comparator of the sort (claim C10)

`Layout::new` performs no input validation; the only place a NaN height is
ever *observed* (rather than silently propagated) is the comparator
`|a, b| b.h.partial_cmp(&a.h).unwrap()`, whose `unwrap` panics on the
`None` ordering produced when either height is NaN.  We model boxes whose
height may be NaN (`none`) and the sort's comparisons in an `Option` monad
in which `none` is the panic. -/

/-- A box as the sort sees it when its height may be NaN (`none`). -/
structure FBox where
  id : ℕ
  w : ℚ
  h : Option ℚ
deriving DecidableEq

/-- `|a, b| b.h.partial_cmp(&a.h)`: `none` (and hence an `unwrap` panic at
the call site) exactly when either height is NaN. -/
def cmpDesc (a b : FBox) : Option Ordering :=
  match b.h, a.h with
  | some hb, some ha => some (compare hb ha)
  | _, _ => none

/-- One insertion step of the sort under the panicking comparator; the
result is `none` when some executed comparison panicked. -/
def insertOrd (b : FBox) : List FBox → Option (List FBox)
  | [] => some [b]
  | c :: rest =>
    match cmpDesc b c with
    | none => none
    | some Ordering.gt => (insertOrd b rest).map fun l => c :: l
    | some _ => some (b :: c :: rest)

/-- The sorting pass (insertion sort, which is what Rust's slice sort runs
on small inputs and whose comparison behavior on NaN is representative):
`none` when any executed comparison panicked. -/
def sortOrd : List FBox → Option (List FBox)
  | [] => some []
  | b :: rest => (sortOrd rest).bind (insertOrd b)

theorem insertOrd_total (b : FBox) (hb : b.h.isSome) (l : List FBox)
    (hl : ∀ c ∈ l, c.h.isSome) :
    ∃ l', insertOrd b l = some l' ∧ ∀ c ∈ l', c.h.isSome := by
  induction l with
  | nil => exact ⟨[b], rfl, by simpa using hb⟩
  | cons c rest ih =>
    have hc : c.h.isSome := hl c (by simp)
    obtain ⟨bv, hbv⟩ := Option.isSome_iff_exists.mp hb
    obtain ⟨cv, hcv⟩ := Option.isSome_iff_exists.mp hc
    obtain ⟨l'', h1, h2⟩ := ih fun d hd => hl d (by simp [hd])
    have hcmp : cmpDesc b c = some (compare cv bv) := by
      unfold cmpDesc
      rw [hbv, hcv]
    cases ho : compare cv bv with
    | lt =>
      refine ⟨b :: c :: rest, ?_, ?_⟩
      · unfold insertOrd; rw [hcmp, ho]
      · intro d hd
        rcases List.mem_cons.mp hd with rfl | hd2
        · exact hb
        · exact hl d hd2
    | eq =>
      refine ⟨b :: c :: rest, ?_, ?_⟩
      · unfold insertOrd; rw [hcmp, ho]
      · intro d hd
        rcases List.mem_cons.mp hd with rfl | hd2
        · exact hb
        · exact hl d hd2
    | gt =>
      refine ⟨c :: l'', ?_, ?_⟩
      · unfold insertOrd; rw [hcmp, ho, h1]; rfl
      · intro d hd
        rcases List.mem_cons.mp hd with rfl | hd2
        · exact hc
        · exact h2 d hd2

theorem sortOrd_total (l : List FBox) (hl : ∀ c ∈ l, c.h.isSome) :
    ∃ l', sortOrd l = some l' ∧ ∀ c ∈ l', c.h.isSome := by
  induction l with
  | nil => exact ⟨[], rfl, by simp⟩
  | cons b rest ih =>
    obtain ⟨l', h1, h2⟩ := ih fun d hd => hl d (by simp [hd])
    obtain ⟨l'', h3, h4⟩ := insertOrd_total b (hl b (by simp)) l' h2
    refine ⟨l'', ?_, h4⟩
    unfold sortOrd
    rw [h1]
    exact h3

/-- **C10.** `Layout::new` does no input validation and the height sort is
not total: with a NaN height in a multi-element input the comparator
returns `None` and its `unwrap` panics (modelled as the `none` result),
whereas the sort never panics when no height is NaN. -/
theorem sort_panics_on_nan_height :
    sortOrd [{ id := 0, w := 1, h := none }, { id := 1, w := 1, h := some 1 }] = none ∧
    ∀ l : List FBox, (∀ c ∈ l, c.h.isSome) → (sortOrd l).isSome := by
  constructor
  · decide
  · intro l hl
    obtain ⟨l', h1, _⟩ := sortOrd_total l hl
    rw [h1]
    rfl

/-- Witness: the no-NaN direction of `sort_panics_on_nan_height` applied to
a concrete NaN-free input. -/
theorem sort_panics_on_nan_height_witness :
    (∀ c ∈ [({ id := 0, w := 1, h := some 5 } : FBox)], c.h.isSome) ∧
    (sortOrd [({ id := 0, w := 1, h := some 5 } : FBox)]).isSome :=
  ⟨by decide, sort_panics_on_nan_height.2 _ (by decide)⟩

/-! ### Everything is placed when the heights cannot exhaust the initial
space (amended claim C9) -/

theorem fits_iff (b : Box) (s : Space) : fits b s = true ↔ b.w ≤ s.w ∧ b.h ≤ s.h := by
  unfold fits
  rw [Bool.not_eq_true']
  simp [not_or, not_lt]

theorem foldl_maxW_init (l : List Box) (q : ℚ) :
    ∃ mw, l.foldl (fun m b =>
      match m with
      | none => some b.w
      | some r => some (max r b.w)) (some q) = some mw ∧ q ≤ mw := by
  induction l generalizing q with
  | nil => exact ⟨q, rfl, le_refl q⟩
  | cons c rest ih =>
    obtain ⟨mw, h1, h2⟩ := ih (max q c.w)
    exact ⟨mw, h1, le_trans (le_max_left q c.w) h2⟩

theorem foldl_maxW_mem (l : List Box) (q : ℚ) (b : Box) (hb : b ∈ l) :
    ∃ mw, l.foldl (fun m b =>
      match m with
      | none => some b.w
      | some r => some (max r b.w)) (some q) = some mw ∧ b.w ≤ mw := by
  induction l generalizing q with
  | nil => simp at hb
  | cons c rest ih =>
    rcases List.mem_cons.mp hb with rfl | hmem
    · obtain ⟨mw, h1, h2⟩ := foldl_maxW_init rest (max q b.w)
      exact ⟨mw, h1, le_trans (le_max_right q b.w) h2⟩
    · exact ih (max q c.w) hmem

theorem maxWidth_ge_mem (boxes : List Box) (b : Box) (hb : b ∈ boxes) :
    ∃ mw, maxWidth boxes = some mw ∧ b.w ≤ mw := by
  cases boxes with
  | nil => simp at hb
  | cons c rest =>
    unfold maxWidth
    rcases List.mem_cons.mp hb with rfl | hmem
    · exact foldl_maxW_init rest b.w
    · exact foldl_maxW_mem rest c.w b hmem

theorem le_startWidth_of_mem (boxes : List Box) (b : Box) (hb : b ∈ boxes) :
    b.w ≤ startWidth boxes := by
  obtain ⟨mw, hmw, hge⟩ := maxWidth_ge_mem boxes b hb
  unfold startWidth
  rw [hmw]
  dsimp only
  by_cases hta : totalArea boxes < 0
  · rw [if_pos hta]; exact hge
  · rw [if_neg hta]; exact le_trans hge (le_max_right _ mw)

theorem startWidth_nonneg (boxes : List Box) (hta : 0 ≤ totalArea boxes) :
    0 ≤ startWidth boxes := by
  unfold startWidth
  cases hmw : maxWidth boxes with
  | none => dsimp only; positivity
  | some mw =>
    dsimp only
    rw [if_neg (not_lt.mpr hta)]
    exact le_trans (by positivity) (le_max_left _ mw)

theorem swapRemove_cons_succ_head {α : Type _} (a : α) (l : List α) (k : ℕ)
    (hk : k < l.length) : ∃ l', swapRemove (a :: l) (k + 1) = a :: l' := by
  cases l with
  | nil => simp at hk
  | cons b m =>
    obtain ⟨g, hg⟩ : ∃ g, (b :: m).getLast? = some g := by
      cases h : (b :: m).getLast? with
      | none => exact absurd h (by simp)
      | some g => exact ⟨g, rfl⟩
    have hg2 : (a :: b :: m).getLast? = some g := by
      rw [List.getLast?_cons_cons]; exact hg
    have hne : (b :: m).set k g ≠ [] := by
      intro hcon
      have := congrArg List.length hcon
      simp at this
    refine ⟨((b :: m).set k g).dropLast, ?_⟩
    unfold swapRemove
    rw [hg2]
    show ((a :: (b :: m).set k g)).dropLast = a :: ((b :: m).set k g).dropLast
    exact List.dropLast_cons_of_ne_nil hne

theorem heights_sum_nonneg (l : List Box) (h : ∀ b ∈ l, 0 ≤ b.h) :
    0 ≤ (l.map Box.h).sum := by
  apply List.sum_nonneg
  intro x hx
  obtain ⟨b, hb, rfl⟩ := List.mem_map.mp hx
  exact h b hb

theorem packAll_places_all (rest : List Box) : ∀ (st : PackState) (SW : ℚ),
    (∀ b ∈ rest, b.w ≤ SW) → (∀ b ∈ rest, 0 ≤ b.w ∧ 0 ≤ b.h) →
    (∃ s0 tl, st.spaces = s0 :: tl ∧ s0.w = SW ∧ (rest.map Box.h).sum < s0.h) →
    ∀ b' ∈ (packAll st rest).2, b'.x.isSome ∧ b'.y.isSome := by
  induction rest with
  | nil => intro st SW _ _ _ b' hb'; simp [packAll] at hb'
  | cons b rest' ih =>
    intro st SW hW hnn hinv
    obtain ⟨s0, tl, hsp, hw0, hsum⟩ := hinv
    have hb_mem : b ∈ b :: rest' := List.mem_cons_self b rest'
    have hbh0 : 0 ≤ b.h := (hnn b hb_mem).2
    have hsum0 : 0 ≤ (rest'.map Box.h).sum :=
      heights_sum_nonneg rest' fun c hc => (hnn c (List.mem_cons_of_mem b hc)).2
    have hsum_cons : b.h + (rest'.map Box.h).sum < s0.h := by
      simpa [List.map_cons, List.sum_cons] using hsum
    have hbh : b.h < s0.h := by linarith
    have hfit : fits b s0 = true :=
      (fits_iff b s0).mpr ⟨by rw [hw0]; exact hW b hb_mem, le_of_lt hbh⟩
    have hs0mem : s0 ∈ st.spaces := by rw [hsp]; exact List.mem_cons_self s0 tl
    obtain ⟨i, hfi⟩ := Option.isSome_iff_exists.mp
      (lastFitIdx_isSome_of b st.spaces s0 hs0mem hfit)
    obtain ⟨s, hsget, hsfits⟩ := lastFitIdx_fits b st.spaces i hfi
    have hplace := placeBox_eq st b i s hfi hsget
    -- the new head space after this placement
    have hnext : ∃ s1 tl1, (placeBox st b).1.spaces = s1 :: tl1 ∧ s1.w = SW ∧
        (rest'.map Box.h).sum < s1.h := by
      rw [hplace]
      cases i with
      | zero =>
        have hs_eq : s = s0 := by
          rw [hsp] at hsget
          simpa using hsget.symm
        subst hs_eq
        have hh : ¬b.h = s.h := ne_of_lt hbh
        have hcond : ¬(b.w = s.w ∧ b.h = s.h) := fun hc => hh hc.2
        rw [if_neg hcond, if_neg hh]
        by_cases hwE : b.w = s.w
        · rw [if_pos hwE, hsp]
          refine ⟨{ w := s.w, h := s.h - b.h, x := s.x, y := s.y + b.h }, tl, ?_, hw0, ?_⟩
          · rfl
          · show (rest'.map Box.h).sum < s.h - b.h
            linarith
        · rw [if_neg hwE, hsp]
          refine ⟨{ w := s.w, h := s.h - b.h, x := s.x, y := s.y + b.h },
            tl ++ [{ w := s.w - b.w, h := b.h, x := s.x + b.w, y := s.y }], ?_, hw0, ?_⟩
          · rfl
          · show (rest'.map Box.h).sum < s.h - b.h
            linarith
      | succ k =>
        have hk : k < tl.length := by
          have := lastFitIdx_lt b st.spaces (k + 1) hfi
          rw [hsp] at this
          simpa using this
        by_cases hcond : b.w = s.w ∧ b.h = s.h
        · rw [if_pos hcond, hsp]
          obtain ⟨l', hl'⟩ := swapRemove_cons_succ_head s0 tl k hk
          rw [hl']
          exact ⟨s0, l', rfl, hw0, by linarith⟩
        · rw [if_neg hcond]
          by_cases hh : b.h = s.h
          · rw [if_pos hh, hsp]
            refine ⟨s0, _, rfl, hw0, by linarith⟩
          · rw [if_neg hh]
            by_cases hwE : b.w = s.w
            · rw [if_pos hwE, hsp]
              refine ⟨s0, _, rfl, hw0, by linarith⟩
            · rw [if_neg hwE, hsp]
              refine ⟨s0, _, rfl, hw0, by linarith⟩
    intro b' hb'
    have hunfold : (packAll st (b :: rest')).2 =
        (placeBox st b).2 :: (packAll (placeBox st b).1 rest').2 := rfl
    rw [hunfold] at hb'
    rcases List.mem_cons.mp hb' with rfl | hmem
    · rw [hplace]
      exact ⟨rfl, rfl⟩
    · exact ih (placeBox st b).1 SW
        (fun c hc => hW c (List.mem_cons_of_mem b hc))
        (fun c hc => hnn c (List.mem_cons_of_mem b hc))
        hnext b' hmem

theorem mem_newBoxes_spec (items : List (ℚ × ℚ)) (b : Box)
    (hb : b ∈ items.enum.map fun p =>
      ({ id := p.1, w := p.2.1, h := p.2.2, x := none, y := none } : Box)) :
    ∃ q ∈ items, b.w = q.1 ∧ b.h = q.2 ∧ b.x = none ∧ b.y = none := by
  obtain ⟨p, hp, rfl⟩ := List.mem_map.mp hb
  have h2 : p.2 ∈ items.enum.map Prod.snd := List.mem_map_of_mem Prod.snd hp
  simp only [List.enum_map_snd] at h2
  exact ⟨p.2, h2, rfl, rfl, rfl, rfl⟩

theorem newBoxes_heights (items : List (ℚ × ℚ)) :
    ((items.enum.map fun p =>
      ({ id := p.1, w := p.2.1, h := p.2.2, x := none, y := none } : Box)).map Box.h) =
    items.map fun p => p.2 := by
  rw [List.map_map]
  have e : (items.enum.map Prod.snd).map (fun q : ℚ × ℚ => q.2) =
      items.map fun p => p.2 := by
    simp only [List.enum_map_snd]
  rw [← e, List.map_map]
  rfl

theorem all_items_placed_shared (items : List (ℚ × ℚ))
    (hfin : ∀ p ∈ items, 0 ≤ p.1 ∧ p.1 ≤ f64Max ∧ 0 ≤ p.2 ∧ p.2 ≤ f64Max)
    (hsum : (items.map fun p => p.2).sum < f64Max) :
    ∀ b ∈ (Layout.new items).items, b.x.isSome ∧ b.y.isSome := by
  set boxes := items.enum.map fun p =>
    ({ id := p.1, w := p.2.1, h := p.2.2, x := none, y := none } : Box) with hboxes
  have hitems : (Layout.new items).items =
      (packAll { spaces := [{ w := startWidth boxes, h := f64Max, x := 0, y := 0 }],
                 width := 0, height := 0 } (sortDesc boxes)).2 := rfl
  rw [hitems]
  refine packAll_places_all (sortDesc boxes) _ (startWidth boxes) ?_ ?_ ?_
  · intro b hb
    exact le_startWidth_of_mem boxes b ((sortDesc_perm boxes).mem_iff.mp hb)
  · intro b hb
    obtain ⟨q, hq, hw, hh, _, _⟩ :=
      mem_newBoxes_spec items b ((sortDesc_perm boxes).mem_iff.mp hb)
    obtain ⟨h1, _, h3, _⟩ := hfin q hq
    exact ⟨hw ▸ h1, hh ▸ h3⟩
  · refine ⟨{ w := startWidth boxes, h := f64Max, x := 0, y := 0 }, [], rfl, rfl, ?_⟩
    have e1 : ((sortDesc boxes).map Box.h).sum = (boxes.map Box.h).sum :=
      ((sortDesc_perm boxes).map Box.h).sum_eq
    rw [e1, newBoxes_heights items]
    exact hsum

/-- **C9, amended.**  For every input whose items all have finite,
non-negative width and height *and whose heights sum to less than
`f64::MAX`*, every item is actually placed — the no-fitting-space branch is
unreachable (the initial free space's lineage keeps width `start_width ≥`
every item width and more remaining height than all unplaced items
together), so no returned box retains the NaN sentinel coordinates. -/
theorem all_items_placed (items : List (ℚ × ℚ))
    (hfin : ∀ p ∈ items, 0 ≤ p.1 ∧ p.1 ≤ f64Max ∧ 0 ≤ p.2 ∧ p.2 ≤ f64Max)
    (hsum : (items.map fun p => p.2).sum < f64Max) :
    ∀ b ∈ (Layout.new items).items, b.x.isSome ∧ b.y.isSome :=
  all_items_placed_shared items hfin hsum

/-- Witness for `all_items_placed` at the concrete input `[(10, 10)]`. -/
theorem all_items_placed_witness :
    (∀ p ∈ [((10 : ℚ), (10 : ℚ))], 0 ≤ p.1 ∧ p.1 ≤ f64Max ∧ 0 ≤ p.2 ∧ p.2 ≤ f64Max) ∧
    (([((10 : ℚ), (10 : ℚ))].map fun p => p.2).sum < f64Max) ∧
    ∀ b ∈ (Layout.new [((10 : ℚ), (10 : ℚ))]).items, b.x.isSome ∧ b.y.isSome :=
  ⟨by intro p hp; rcases List.mem_cons.mp hp with rfl | h; · norm_num [f64Max]
      · simp at h,
   by norm_num [f64Max],
   all_items_placed [((10 : ℚ), (10 : ℚ))]
     (by intro p hp; rcases List.mem_cons.mp hp with rfl | h; · norm_num [f64Max]
         · simp at h)
     (by norm_num [f64Max])⟩

/-! ### Rectangles, separation, interior-disjointness -/

/-- An axis-aligned rectangle `[x, x+w] × [y, y+h]` (corner and size). -/
structure Rect where
  x : ℚ
  y : ℚ
  w : ℚ
  h : ℚ
deriving DecidableEq

def Rect.nonneg (r : Rect) : Prop := 0 ≤ r.x ∧ 0 ≤ r.y ∧ 0 ≤ r.w ∧ 0 ≤ r.h

/-- The two rectangles are separated by an axis-aligned line. -/
def separated (a b : Rect) : Prop :=
  a.x + a.w ≤ b.x ∨ b.x + b.w ≤ a.x ∨ a.y + a.h ≤ b.y ∨ b.y + b.h ≤ a.y

/-- The interiors of the closed rectangles are disjoint: one of them is
degenerate, or they are separated.  (`interiorsDisjoint_spec` below proves
this is exactly disjointness of the topological interiors in `ℝ × ℝ`.) -/
def interiorsDisjoint (a b : Rect) : Prop :=
  a.w ≤ 0 ∨ a.h ≤ 0 ∨ b.w ≤ 0 ∨ b.h ≤ 0 ∨ separated a b

/-- `a` lies inside `b`. -/
def SubRect (a b : Rect) : Prop :=
  b.x ≤ a.x ∧ a.x + a.w ≤ b.x + b.w ∧ b.y ≤ a.y ∧ a.y + a.h ≤ b.y + b.h

theorem interiorsDisjoint_symm {a b : Rect} (h : interiorsDisjoint a b) :
    interiorsDisjoint b a := by
  rcases h with h | h | h | h | h
  · exact Or.inr (Or.inr (Or.inl h))
  · exact Or.inr (Or.inr (Or.inr (Or.inl h)))
  · exact Or.inl h
  · exact Or.inr (Or.inl h)
  · refine Or.inr (Or.inr (Or.inr (Or.inr ?_)))
    rcases h with h | h | h | h
    · exact Or.inr (Or.inl h)
    · exact Or.inl h
    · exact Or.inr (Or.inr (Or.inr h))
    · exact Or.inr (Or.inr (Or.inl h))

theorem interiorsDisjoint_symmetric : Symmetric interiorsDisjoint :=
  fun _ _ h => interiorsDisjoint_symm h

theorem SubRect.dims {a b : Rect} (h : SubRect a b) : a.w ≤ b.w ∧ a.h ≤ b.h := by
  obtain ⟨h1, h2, h3, h4⟩ := h
  constructor <;> linarith

theorem interiorsDisjoint_of_subRect {a s r : Rect} (hsub : SubRect a s)
    (h : interiorsDisjoint r s) : interiorsDisjoint r a := by
  obtain ⟨hx1, hx2, hy1, hy2⟩ := hsub
  rcases h with h | h | h | h | h
  · exact Or.inl h
  · exact Or.inr (Or.inl h)
  · exact Or.inr (Or.inr (Or.inl (by linarith)))
  · exact Or.inr (Or.inr (Or.inr (Or.inl (by linarith))))
  · refine Or.inr (Or.inr (Or.inr (Or.inr ?_)))
    rcases h with h | h | h | h
    · exact Or.inl (by linarith)
    · exact Or.inr (Or.inl (by linarith))
    · exact Or.inr (Or.inr (Or.inl (by linarith)))
    · exact Or.inr (Or.inr (Or.inr (by linarith)))

/-- Lift a `Pairwise` on `filterMap f l` back to `l`. -/
theorem pairwise_of_pairwise_filterMap {α β : Type _} (f : α → Option β)
    (R : β → β → Prop) (l : List α) (h : List.Pairwise R (l.filterMap f)) :
    List.Pairwise (fun a b => ∀ x ∈ f a, ∀ y ∈ f b, R x y) l := by
  induction l with
  | nil => exact List.Pairwise.nil
  | cons a rest ih =>
    cases hfa : f a with
    | none =>
      rw [List.filterMap_cons_none hfa] at h
      refine List.Pairwise.cons ?_ (ih h)
      intro b _ x hx
      rw [hfa] at hx
      simp at hx
    | some v =>
      rw [List.filterMap_cons_some hfa] at h
      obtain ⟨hv, hrest⟩ := List.pairwise_cons.mp h
      refine List.Pairwise.cons ?_ (ih hrest)
      intro b hb x hx y hy
      rw [hfa] at hx
      have hxv : v = x := by simpa using hx
      subst hxv
      exact hv y (List.mem_filterMap.mpr ⟨b, hb, hy⟩)

/-! ### The rectangles of the packing state -/

def Space.rect (s : Space) : Rect := { x := s.x, y := s.y, w := s.w, h := s.h }

/-- The rectangle of a box, when its coordinates have been assigned. -/
def Box.rect? (b : Box) : Option Rect :=
  match b.x, b.y with
  | some x, some y => some { x := x, y := y, w := b.w, h := b.h }
  | _, _ => none

def placedRects (l : List Box) : List Rect := l.filterMap Box.rect?

/-- All rectangles the algorithm is committed to: the placed boxes and the
current free spaces. -/
def stateRects (st : PackState) (placed : List Box) : List Rect :=
  placedRects placed ++ st.spaces.map Space.rect

/-- The geometric invariant of the placement loop: every tracked rectangle
is non-negative, and all tracked rectangles have pairwise disjoint
interiors. -/
def GoodRects (st : PackState) (placed : List Box) : Prop :=
  (∀ r ∈ stateRects st placed, r.nonneg) ∧
  List.Pairwise interiorsDisjoint (stateRects st placed)

theorem rect?_none {b : Box} (hx : b.x = none) : b.rect? = none := by
  unfold Box.rect?
  rw [hx]

theorem rect?_some {b : Box} {x y : ℚ} (hx : b.x = some x) (hy : b.y = some y) :
    b.rect? = some { x := x, y := y, w := b.w, h := b.h } := by
  unfold Box.rect?
  rw [hx, hy]

theorem pairwise_insert_mid (U V : List Rect) (p : Rect)
    (hUV : List.Pairwise interiorsDisjoint (U ++ V))
    (hpU : ∀ m ∈ U, interiorsDisjoint m p)
    (hpV : ∀ m ∈ V, interiorsDisjoint p m) :
    List.Pairwise interiorsDisjoint (U ++ p :: V) := by
  have h1 : List.Pairwise interiorsDisjoint (p :: (U ++ V)) := by
    refine List.Pairwise.cons ?_ hUV
    intro m hm
    rcases List.mem_append.mp hm with hU | hV
    · exact interiorsDisjoint_symm (hpU m hU)
    · exact hpV m hV
  exact ((List.perm_middle).pairwise_iff interiorsDisjoint_symm).mpr h1

theorem pairwise_target (P M : List Rect) (rb : Rect)
    (hP : List.Pairwise interiorsDisjoint P)
    (hM : List.Pairwise interiorsDisjoint M)
    (hPM : ∀ a ∈ P, ∀ m ∈ M, interiorsDisjoint a m)
    (hrbP : ∀ a ∈ P, interiorsDisjoint a rb)
    (hrbM : ∀ m ∈ M, interiorsDisjoint rb m) :
    List.Pairwise interiorsDisjoint ((P ++ [rb]) ++ M) := by
  refine List.pairwise_append.mpr ⟨?_, hM, ?_⟩
  · refine List.pairwise_append.mpr ⟨hP, List.pairwise_singleton _ _, ?_⟩
    intro a ha r hr
    rw [List.mem_singleton.mp hr]
    exact hrbP a ha
  · intro a ha m hm
    rcases List.mem_append.mp ha with haP | harb
    · exact hPM a haP m hm
    · rw [List.mem_singleton.mp harb]
      exact hrbM m hm

theorem placeBox_good (st : PackState) (placed : List Box) (b : Box)
    (hbw : 0 ≤ b.w) (hbh : 0 ≤ b.h) (hbx : b.x = none) (hby : b.y = none)
    (H : GoodRects st placed) :
    GoodRects (placeBox st b).1 (placed ++ [(placeBox st b).2]) := by
  obtain ⟨Hnn, Hpw⟩ := H
  cases hfi : lastFitIdx b st.spaces with
  | none =>
    rw [placeBox_no_fit st b hfi]
    have he : stateRects st (placed ++ [b]) = stateRects st placed := by
      unfold stateRects placedRects
      rw [List.filterMap_append]
      rw [show List.filterMap Box.rect? [b] = [] from by
        rw [List.filterMap_cons_none (rect?_none hbx)]; rfl]
      simp
    exact ⟨fun r hr => Hnn r (he ▸ hr), he ▸ Hpw⟩
  | some i =>
    obtain ⟨s, hsget, hsfit⟩ := lastFitIdx_fits b st.spaces i hfi
    obtain ⟨hbws, hbhs⟩ := (fits_iff b s).mp hsfit
    obtain ⟨u, v, hdecomp, hulen⟩ := getElem?_decomp hsget
    have hplace := placeBox_eq st b i s hfi hsget
    set P := placedRects placed with hPdef
    set Umap := u.map Space.rect with hUdef
    set Vmap := v.map Space.rect with hVdef
    have hsr : stateRects st placed = P ++ (Umap ++ Space.rect s :: Vmap) := by
      unfold stateRects
      rw [hdecomp]
      simp [List.map_append]
    -- extraction of the invariant in decomposed form
    have horig : List.Pairwise interiorsDisjoint (P ++ (Umap ++ Space.rect s :: Vmap)) :=
      hsr ▸ Hpw
    have hnn_orig : ∀ r ∈ P ++ (Umap ++ Space.rect s :: Vmap), r.nonneg :=
      fun r hr => Hnn r (hsr ▸ hr)
    have hpw_cons : List.Pairwise interiorsDisjoint
        (Space.rect s :: (P ++ (Umap ++ Vmap))) := by
      have h1 : List.Pairwise interiorsDisjoint ((P ++ Umap) ++ Space.rect s :: Vmap) := by
        rw [List.append_assoc]; exact horig
      have h2 := ((List.perm_middle).pairwise_iff interiorsDisjoint_symm).mp h1
      rwa [List.append_assoc] at h2
    obtain ⟨hR0, hcore⟩ := List.pairwise_cons.mp hpw_cons
    have hPW_P : List.Pairwise interiorsDisjoint P := (List.pairwise_append.mp hcore).1
    have hPW_UV : List.Pairwise interiorsDisjoint (Umap ++ Vmap) :=
      (List.pairwise_append.mp hcore).2.1
    have hcrossP : ∀ a ∈ P, ∀ m ∈ Umap ++ Vmap, interiorsDisjoint a m :=
      (List.pairwise_append.mp hcore).2.2
    have hs_nn : (Space.rect s).nonneg := by
      apply hnn_orig
      simp [List.mem_append]
    obtain ⟨hsx, hsy, hsw, hsh⟩ := hs_nn
    have hsx' : 0 ≤ s.x := hsx
    have hsy' : 0 ≤ s.y := hsy
    have hsw' : 0 ≤ s.w := hsw
    have hsh' : 0 ≤ s.h := hsh
    -- the rectangle of the newly placed box, and its relation to s
    set rb : Rect := { x := s.x, y := s.y, w := b.w, h := b.h } with hrbdef
    have hrb_sub : SubRect rb (Space.rect s) := by
      refine ⟨le_refl _, ?_, le_refl _, ?_⟩ <;> simp [Space.rect, hrbdef] <;> linarith
    have hrb_nn : rb.nonneg := ⟨hsx, hsy, hbw, hbh⟩
    -- disjointness with a subrectangle of s, for anything in the old state
    have hsub_R : ∀ (p : Rect), SubRect p (Space.rect s) →
        ∀ m ∈ P ++ (Umap ++ Vmap), interiorsDisjoint m p :=
      fun p hp m hm => interiorsDisjoint_of_subRect hp (interiorsDisjoint_symm (hR0 m hm))
    have hmemP : ∀ m ∈ P, m ∈ P ++ (Umap ++ Vmap) := fun m hm => List.mem_append_left _ hm
    have hmemUV : ∀ m ∈ Umap ++ Vmap, m ∈ P ++ (Umap ++ Vmap) :=
      fun m hm => List.mem_append_right _ hm
    have hnn_core : ∀ m ∈ P ++ (Umap ++ Vmap), m.nonneg := by
      intro m hm
      apply hnn_orig
      rcases List.mem_append.mp hm with h | h
      · exact List.mem_append_left _ h
      · rcases List.mem_append.mp h with h' | h'
        · exact List.mem_append_right _ (List.mem_append_left _ h')
        · exact List.mem_append_right _ (List.mem_append_right _ (List.mem_cons_of_mem _ h'))
    -- the placed part of the new state
    have hb'rect : Box.rect? { b with x := some s.x, y := some s.y } = some rb := rfl
    have hPr : placedRects (placed ++ [{ b with x := some s.x, y := some s.y }]) =
        P ++ [rb] := by
      unfold placedRects
      rw [List.filterMap_append]
      rfl
    rw [hplace]
    -- branch on how the chosen space is resolved
    by_cases hm1 : b.w = s.w ∧ b.h = s.h
    · -- exact match: the space is swap-removed
      rw [if_pos hm1] at hplace ⊢
      constructor
      · intro r hr
        unfold stateRects at hr
        rw [hPr] at hr
        rcases List.mem_append.mp hr with h | h
        · rcases List.mem_append.mp h with h' | h'
          · exact hnn_core r (hmemP r h')
          · rw [List.mem_singleton.mp h']; exact hrb_nn
        · obtain ⟨sp, hsp, rfl⟩ := List.mem_map.mp h
          have : Space.rect sp ∈ Umap ++ Vmap := by
            have hperm : Perm (swapRemove st.spaces i) (u ++ v) := by
              rw [hdecomp, ← hulen]; exact swapRemove_perm u v s
            have : sp ∈ u ++ v := hperm.mem_iff.mp hsp
            rcases List.mem_append.mp this with h' | h'
            · exact List.mem_append_left _ (List.mem_map_of_mem _ h')
            · exact List.mem_append_right _ (List.mem_map_of_mem _ h')
          exact hnn_core _ (hmemUV _ this)
      · unfold stateRects
        rw [hPr]
        have hXperm : Perm ((swapRemove st.spaces i).map Space.rect) (Umap ++ Vmap) := by
          have hperm : Perm (swapRemove st.spaces i) (u ++ v) := by
            rw [hdecomp, ← hulen]; exact swapRemove_perm u v s
          have := hperm.map Space.rect
          rwa [List.map_append] at this
        refine pairwise_target P _ rb hPW_P
          ((hXperm.pairwise_iff interiorsDisjoint_symm).mpr hPW_UV) ?_ ?_ ?_
        · intro a ha m hm
          exact hcrossP a ha m (hXperm.mem_iff.mp hm)
        · intro a ha
          exact hsub_R rb hrb_sub a (hmemP a ha)
        · intro m hm
          exact interiorsDisjoint_symm
            (hsub_R rb hrb_sub m (hmemUV m (hXperm.mem_iff.mp hm)))
    · rw [if_neg hm1] at hplace ⊢
      by_cases hm2 : b.h = s.h
      · -- height matches: the space shrinks to the right
        rw [if_pos hm2] at hplace ⊢
        set s1 : Space := { w := s.w - b.w, h := s.h, x := s.x + b.w, y := s.y } with hs1def
        have hs1_sub : SubRect (Space.rect s1) (Space.rect s) := by
          refine ⟨?_, ?_, le_refl _, le_refl _⟩ <;> simp [Space.rect, hs1def] <;> linarith
        have hs1_nn : (Space.rect s1).nonneg :=
          ⟨by simp [Space.rect, hs1def]; linarith, hsy, by simp [Space.rect, hs1def]; linarith, hsh⟩
        have hrb_s1 : interiorsDisjoint rb (Space.rect s1) := by
          refine Or.inr (Or.inr (Or.inr (Or.inr ?_)))
          exact Or.inl (by simp [Space.rect, hs1def, hrbdef])
        have hX : st.spaces.set i s1 = u ++ s1 :: v := by
          rw [hdecomp, ← hulen, set_decomp]
        have hXmap : (st.spaces.set i s1).map Space.rect = Umap ++ Space.rect s1 :: Vmap := by
          rw [hX]; simp [List.map_append]
        constructor
        · intro r hr
          unfold stateRects at hr
          rw [hPr, hXmap] at hr
          rcases List.mem_append.mp hr with h | h
          · rcases List.mem_append.mp h with h' | h'
            · exact hnn_core r (hmemP r h')
            · rw [List.mem_singleton.mp h']; exact hrb_nn
          · rcases List.mem_append.mp h with h' | h'
            · exact hnn_core r (hmemUV r (List.mem_append_left _ h'))
            · rcases List.mem_cons.mp h' with rfl | h''
              · exact hs1_nn
              · exact hnn_core r (hmemUV r (List.mem_append_right _ h''))
        · unfold stateRects
          rw [hPr, hXmap]
          have hM : List.Pairwise interiorsDisjoint (Umap ++ Space.rect s1 :: Vmap) := by
            refine pairwise_insert_mid Umap Vmap (Space.rect s1) hPW_UV ?_ ?_
            · intro m hm
              exact hsub_R _ hs1_sub m (hmemUV m (List.mem_append_left _ hm))
            · intro m hm
              exact interiorsDisjoint_symm
                (hsub_R _ hs1_sub m (hmemUV m (List.mem_append_right _ hm)))
          refine pairwise_target P _ rb hPW_P hM ?_ ?_ ?_
          · intro a ha m hm
            rcases List.mem_append.mp hm with h' | h'
            · exact hcrossP a ha m (List.mem_append_left _ h')
            · rcases List.mem_cons.mp h' with rfl | h''
              · exact hsub_R _ hs1_sub a (hmemP a ha)
              · exact hcrossP a ha m (List.mem_append_right _ h'')
          · intro a ha
            exact hsub_R rb hrb_sub a (hmemP a ha)
          · intro m hm
            rcases List.mem_append.mp hm with h' | h'
            · exact interiorsDisjoint_symm
                (hsub_R rb hrb_sub m (hmemUV m (List.mem_append_left _ h')))
            · rcases List.mem_cons.mp h' with rfl | h''
              · exact hrb_s1
              · exact interiorsDisjoint_symm
                  (hsub_R rb hrb_sub m (hmemUV m (List.mem_append_right _ h'')))
      · rw [if_neg hm2] at hplace ⊢
        -- the down-shrunk space, shared by the remaining two branches
        set s1 : Space := { w := s.w, h := s.h - b.h, x := s.x, y := s.y + b.h } with hs1def
        have hs1_sub : SubRect (Space.rect s1) (Space.rect s) := by
          refine ⟨le_refl _, le_refl _, ?_, ?_⟩ <;> simp [Space.rect, hs1def] <;> linarith
        have hs1_nn : (Space.rect s1).nonneg :=
          ⟨hsx, by simp [Space.rect, hs1def]; linarith, hsw, by simp [Space.rect, hs1def]; linarith⟩
        have hrb_s1 : interiorsDisjoint rb (Space.rect s1) := by
          refine Or.inr (Or.inr (Or.inr (Or.inr ?_)))
          exact Or.inr (Or.inr (Or.inl (by simp [Space.rect, hs1def, hrbdef])))
        have hX : st.spaces.set i s1 = u ++ s1 :: v := by
          rw [hdecomp, ← hulen, set_decomp]
        have hXmap : (st.spaces.set i s1).map Space.rect = Umap ++ Space.rect s1 :: Vmap := by
          rw [hX]; simp [List.map_append]
        have hM : List.Pairwise interiorsDisjoint (Umap ++ Space.rect s1 :: Vmap) := by
          refine pairwise_insert_mid Umap Vmap (Space.rect s1) hPW_UV ?_ ?_
          · intro m hm
            exact hsub_R _ hs1_sub m (hmemUV m (List.mem_append_left _ hm))
          · intro m hm
            exact interiorsDisjoint_symm
              (hsub_R _ hs1_sub m (hmemUV m (List.mem_append_right _ hm)))
        have hPMmid : ∀ a ∈ P, ∀ m ∈ Umap ++ Space.rect s1 :: Vmap, interiorsDisjoint a m := by
          intro a ha m hm
          rcases List.mem_append.mp hm with h' | h'
          · exact hcrossP a ha m (List.mem_append_left _ h')
          · rcases List.mem_cons.mp h' with rfl | h''
            · exact hsub_R _ hs1_sub a (hmemP a ha)
            · exact hcrossP a ha m (List.mem_append_right _ h'')
        have hrbMid : ∀ m ∈ Umap ++ Space.rect s1 :: Vmap, interiorsDisjoint rb m := by
          intro m hm
          rcases List.mem_append.mp hm with h' | h'
          · exact interiorsDisjoint_symm
              (hsub_R rb hrb_sub m (hmemUV m (List.mem_append_left _ h')))
          · rcases List.mem_cons.mp h' with rfl | h''
            · exact hrb_s1
            · exact interiorsDisjoint_symm
                (hsub_R rb hrb_sub m (hmemUV m (List.mem_append_right _ h'')))
        have hnnMid : ∀ r ∈ Umap ++ Space.rect s1 :: Vmap, Rect.nonneg r := by
          intro r hr
          rcases List.mem_append.mp hr with h' | h'
          · exact hnn_core r (hmemUV r (List.mem_append_left _ h'))
          · rcases List.mem_cons.mp h' with rfl | h''
            · exact hs1_nn
            · exact hnn_core r (hmemUV r (List.mem_append_right _ h''))
        by_cases hm3 : b.w = s.w
        · -- width matches: only the downward shrink
          rw [if_pos hm3] at hplace ⊢
          constructor
          · intro r hr
            unfold stateRects at hr
            rw [hPr, hXmap] at hr
            rcases List.mem_append.mp hr with h | h
            · rcases List.mem_append.mp h with h' | h'
              · exact hnn_core r (hmemP r h')
              · rw [List.mem_singleton.mp h']; exact hrb_nn
            · exact hnnMid r h
          · unfold stateRects
            rw [hPr, hXmap]
            refine pairwise_target P _ rb hPW_P hM hPMmid ?_ hrbMid
            intro a ha
            exact hsub_R rb hrb_sub a (hmemP a ha)
        · -- neither matches: split into the shrunk space and a right remainder
          rw [if_neg hm3] at hplace ⊢
          set s2 : Space := { w := s.w - b.w, h := b.h, x := s.x + b.w, y := s.y } with hs2def
          have hs2_sub : SubRect (Space.rect s2) (Space.rect s) := by
            refine ⟨?_, ?_, le_refl _, ?_⟩ <;> simp [Space.rect, hs2def] <;> linarith
          have hs2_nn : (Space.rect s2).nonneg :=
            ⟨by simp [Space.rect, hs2def]; linarith, hsy,
             by simp [Space.rect, hs2def]; linarith, hbh⟩
          have hrb_s2 : interiorsDisjoint rb (Space.rect s2) := by
            refine Or.inr (Or.inr (Or.inr (Or.inr ?_)))
            exact Or.inl (by simp [Space.rect, hs2def, hrbdef])
          have hs1_s2 : interiorsDisjoint (Space.rect s1) (Space.rect s2) := by
            refine Or.inr (Or.inr (Or.inr (Or.inr ?_)))
            refine Or.inr (Or.inr (Or.inr ?_))
            simp [Space.rect, hs1def, hs2def]
          have hXmap2 : ((st.spaces.set i s1) ++ [s2]).map Space.rect =
              (Umap ++ Space.rect s1 :: Vmap) ++ [Space.rect s2] := by
            rw [List.map_append, hXmap]
            rfl
          have hM2 : List.Pairwise interiorsDisjoint
              ((Umap ++ Space.rect s1 :: Vmap) ++ [Space.rect s2]) := by
            refine List.pairwise_append.mpr ⟨hM, List.pairwise_singleton _ _, ?_⟩
            intro m hmm r hr
            rw [List.mem_singleton.mp hr]
            rcases List.mem_append.mp hmm with h' | h'
            · exact hsub_R _ hs2_sub m (hmemUV m (List.mem_append_left _ h'))
            · rcases List.mem_cons.mp h' with rfl | h''
              · exact hs1_s2
              · exact hsub_R _ hs2_sub m (hmemUV m (List.mem_append_right _ h''))
          constructor
          · intro r hr
            unfold stateRects at hr
            rw [hPr, hXmap2] at hr
            rcases List.mem_append.mp hr with h | h
            · rcases List.mem_append.mp h with h' | h'
              · exact hnn_core r (hmemP r h')
              · rw [List.mem_singleton.mp h']; exact hrb_nn
            · rcases List.mem_append.mp h with h' | h'
              · exact hnnMid r h'
              · rw [List.mem_singleton.mp h']; exact hs2_nn
          · unfold stateRects
            rw [hPr, hXmap2]
            refine pairwise_target P _ rb hPW_P hM2 ?_ ?_ ?_
            · intro a ha m hm
              rcases List.mem_append.mp hm with h' | h'
              · exact hPMmid a ha m h'
              · rw [List.mem_singleton.mp h']
                exact hsub_R _ hs2_sub a (hmemP a ha)
            · intro a ha
              exact hsub_R rb hrb_sub a (hmemP a ha)
            · intro m hm
              rcases List.mem_append.mp hm with h' | h'
              · exact hrbMid m h'
              · rw [List.mem_singleton.mp h']
                exact hrb_s2

theorem packAll_good (l : List Box) : ∀ (st : PackState) (placed : List Box),
    (∀ b ∈ l, 0 ≤ b.w ∧ 0 ≤ b.h ∧ b.x = none ∧ b.y = none) →
    GoodRects st placed →
    GoodRects (packAll st l).1 (placed ++ (packAll st l).2) := by
  induction l with
  | nil =>
    intro st placed _ H
    simpa [packAll] using H
  | cons b rest ih =>
    intro st placed hl H
    obtain ⟨h1, h2, h3, h4⟩ := hl b (List.mem_cons_self b rest)
    have step := placeBox_good st placed b h1 h2 h3 h4 H
    have hrec := ih (placeBox st b).1 (placed ++ [(placeBox st b).2])
      (fun c hc => hl c (List.mem_cons_of_mem _ hc)) step
    have e : packAll st (b :: rest) =
        ((packAll (placeBox st b).1 rest).1,
         (placeBox st b).2 :: (packAll (placeBox st b).1 rest).2) := rfl
    rw [e]
    have e2 : placed ++ [(placeBox st b).2] ++ (packAll (placeBox st b).1 rest).2 =
        placed ++ ((placeBox st b).2 :: (packAll (placeBox st b).1 rest).2) := by simp
    rw [← e2]
    exact hrec

/-! ### The running extents are the exact fold of the placed corners -/

def xwOf (b : Box) : Option ℚ := b.x.map (· + b.w)

def yhOf (b : Box) : Option ℚ := b.y.map (· + b.h)

theorem packAll_width (l : List Box) : ∀ st : PackState, (∀ b ∈ l, b.x = none) →
    (packAll st l).1.width = ((packAll st l).2.filterMap xwOf).foldl max st.width := by
  induction l with
  | nil => intro st _; rfl
  | cons b rest ih =>
    intro st hl
    cases hfi : lastFitIdx b st.spaces with
    | none =>
      have e : packAll st (b :: rest) =
          ((packAll st rest).1, b :: (packAll st rest).2) := by
        show (let p := placeBox st b;
              let q := packAll p.1 rest; (q.1, p.2 :: q.2)) = _
        rw [placeBox_no_fit st b hfi]
      rw [e]
      have hxw : xwOf b = none := by
        unfold xwOf
        rw [hl b (List.mem_cons_self b rest)]
        rfl
      show (packAll st rest).1.width = ((b :: (packAll st rest).2).filterMap xwOf).foldl max st.width
      rw [List.filterMap_cons_none hxw]
      exact ih st fun c hc => hl c (List.mem_cons_of_mem _ hc)
    | some i =>
      obtain ⟨s, hsget, _⟩ := lastFitIdx_fits b st.spaces i hfi
      have hplace := placeBox_eq st b i s hfi hsget
      have e : packAll st (b :: rest) =
          ((packAll (placeBox st b).1 rest).1,
           (placeBox st b).2 :: (packAll (placeBox st b).1 rest).2) := rfl
      rw [e]
      have hxw : xwOf (placeBox st b).2 = some (s.x + b.w) := by
        rw [hplace]
        rfl
      show (packAll (placeBox st b).1 rest).1.width =
        (((placeBox st b).2 :: (packAll (placeBox st b).1 rest).2).filterMap xwOf).foldl
          max st.width
      rw [List.filterMap_cons_some hxw]
      rw [List.foldl_cons]
      have hw : (placeBox st b).1.width = max st.width (s.x + b.w) := by rw [hplace]
      rw [← hw]
      exact ih (placeBox st b).1 fun c hc => hl c (List.mem_cons_of_mem _ hc)

theorem packAll_height (l : List Box) : ∀ st : PackState, (∀ b ∈ l, b.y = none) →
    (packAll st l).1.height = ((packAll st l).2.filterMap yhOf).foldl max st.height := by
  induction l with
  | nil => intro st _; rfl
  | cons b rest ih =>
    intro st hl
    cases hfi : lastFitIdx b st.spaces with
    | none =>
      have e : packAll st (b :: rest) =
          ((packAll st rest).1, b :: (packAll st rest).2) := by
        show (let p := placeBox st b;
              let q := packAll p.1 rest; (q.1, p.2 :: q.2)) = _
        rw [placeBox_no_fit st b hfi]
      rw [e]
      have hyh : yhOf b = none := by
        unfold yhOf
        rw [hl b (List.mem_cons_self b rest)]
        rfl
      show (packAll st rest).1.height = ((b :: (packAll st rest).2).filterMap yhOf).foldl max st.height
      rw [List.filterMap_cons_none hyh]
      exact ih st fun c hc => hl c (List.mem_cons_of_mem _ hc)
    | some i =>
      obtain ⟨s, hsget, _⟩ := lastFitIdx_fits b st.spaces i hfi
      have hplace := placeBox_eq st b i s hfi hsget
      have e : packAll st (b :: rest) =
          ((packAll (placeBox st b).1 rest).1,
           (placeBox st b).2 :: (packAll (placeBox st b).1 rest).2) := rfl
      rw [e]
      have hyh : yhOf (placeBox st b).2 = some (s.y + b.h) := by
        rw [hplace]
        rfl
      show (packAll (placeBox st b).1 rest).1.height =
        (((placeBox st b).2 :: (packAll (placeBox st b).1 rest).2).filterMap yhOf).foldl
          max st.height
      rw [List.filterMap_cons_some hyh]
      rw [List.foldl_cons]
      have hh : (placeBox st b).1.height = max st.height (s.y + b.h) := by rw [hplace]
      rw [← hh]
      exact ih (placeBox st b).1 fun c hc => hl c (List.mem_cons_of_mem _ hc)

/-- Each output box either still carries the NaN sentinel in both
coordinates or was placed with both coordinates assigned. -/
theorem packAll_coupled (l : List Box) : ∀ st : PackState,
    (∀ b ∈ l, b.x = none ∧ b.y = none) →
    ∀ b' ∈ (packAll st l).2,
      (b'.x = none ∧ b'.y = none) ∨ ∃ xb yb, b'.x = some xb ∧ b'.y = some yb := by
  induction l with
  | nil => intro st _ b' hb'; simp [packAll] at hb'
  | cons b rest ih =>
    intro st hl b' hb'
    have e : (packAll st (b :: rest)).2 =
        (placeBox st b).2 :: (packAll (placeBox st b).1 rest).2 := rfl
    rw [e] at hb'
    rcases List.mem_cons.mp hb' with rfl | hmem
    · cases hfi : lastFitIdx b st.spaces with
      | none =>
        rw [placeBox_no_fit st b hfi]
        exact Or.inl (hl b (List.mem_cons_self b rest))
      | some i =>
        obtain ⟨s, hsget, _⟩ := lastFitIdx_fits b st.spaces i hfi
        rw [placeBox_eq st b i s hfi hsget]
        exact Or.inr ⟨s.x, s.y, rfl, rfl⟩
    · exact ih (placeBox st b).1 (fun c hc => hl c (List.mem_cons_of_mem _ hc)) b' hmem

/-! ### `foldl max` facts -/

theorem foldl_max_mono (l : List ℚ) : ∀ {a b : ℚ}, a ≤ b →
    l.foldl max a ≤ l.foldl max b := by
  induction l with
  | nil => intro a b h; exact h
  | cons c rest ih =>
    intro a b h
    exact ih (max_le_max h (le_refl c))

theorem le_foldl_max (l : List ℚ) (a : ℚ) : a ≤ l.foldl max a := by
  induction l generalizing a with
  | nil => exact le_refl a
  | cons c rest ih =>
    exact le_trans (le_max_left a c) (ih (max a c))

theorem mem_le_foldl_max (l : List ℚ) (a x : ℚ) (hx : x ∈ l) : x ≤ l.foldl max a := by
  induction l generalizing a with
  | nil => simp at hx
  | cons c rest ih =>
    rcases List.mem_cons.mp hx with rfl | hmem
    · exact le_trans (le_max_right a x) (le_foldl_max rest (max a x))
    · exact ih (max a c) hmem

/-! ### From the rational rectangles to real interiors -/

/-- The closed rectangle `[x, x+w] × [y, y+h]` as a subset of `ℝ × ℝ`. -/
def closedRect (r : Rect) : Set (ℝ × ℝ) :=
  Set.Icc (r.x : ℝ) ((r.x : ℝ) + (r.w : ℝ)) ×ˢ Set.Icc (r.y : ℝ) ((r.y : ℝ) + (r.h : ℝ))

theorem interior_closedRect (r : Rect) :
    interior (closedRect r) =
      Set.Ioo (r.x : ℝ) ((r.x : ℝ) + (r.w : ℝ)) ×ˢ
        Set.Ioo (r.y : ℝ) ((r.y : ℝ) + (r.h : ℝ)) := by
  unfold closedRect
  rw [interior_prod_eq, interior_Icc, interior_Icc]

theorem interiorsDisjoint_spec {a b : Rect} (h : interiorsDisjoint a b) :
    Disjoint (interior (closedRect a)) (interior (closedRect b)) := by
  rw [interior_closedRect, interior_closedRect]
  rcases h with h | h | h | h | hsep
  · have he : Set.Ioo (a.x : ℝ) ((a.x : ℝ) + (a.w : ℝ)) = ∅ := by
      apply Set.Ioo_eq_empty
      have : (a.w : ℝ) ≤ 0 := by exact_mod_cast h
      intro hlt; linarith
    rw [he]
    simp
  · have he : Set.Ioo (a.y : ℝ) ((a.y : ℝ) + (a.h : ℝ)) = ∅ := by
      apply Set.Ioo_eq_empty
      have : (a.h : ℝ) ≤ 0 := by exact_mod_cast h
      intro hlt; linarith
    rw [he]
    simp
  · have he : Set.Ioo (b.x : ℝ) ((b.x : ℝ) + (b.w : ℝ)) = ∅ := by
      apply Set.Ioo_eq_empty
      have : (b.w : ℝ) ≤ 0 := by exact_mod_cast h
      intro hlt; linarith
    rw [he]
    simp
  · have he : Set.Ioo (b.y : ℝ) ((b.y : ℝ) + (b.h : ℝ)) = ∅ := by
      apply Set.Ioo_eq_empty
      have : (b.h : ℝ) ≤ 0 := by exact_mod_cast h
      intro hlt; linarith
    rw [he]
    simp
  · rw [Set.disjoint_left]
    intro p hpa hpb
    obtain ⟨⟨hax1, hax2⟩, ⟨hay1, hay2⟩⟩ := hpa
    obtain ⟨⟨hbx1, hbx2⟩, ⟨hby1, hby2⟩⟩ := hpb
    rcases hsep with h | h | h | h
    · have hc : (a.x : ℝ) + (a.w : ℝ) ≤ (b.x : ℝ) := by exact_mod_cast h
      linarith
    · have hc : (b.x : ℝ) + (b.w : ℝ) ≤ (a.x : ℝ) := by exact_mod_cast h
      linarith
    · have hc : (a.y : ℝ) + (a.h : ℝ) ≤ (b.y : ℝ) := by exact_mod_cast h
      linarith
    · have hc : (b.y : ℝ) + (b.h : ℝ) ≤ (a.y : ℝ) := by exact_mod_cast h
      linarith

theorem totalArea_nonneg (boxes : List Box) (h : ∀ b ∈ boxes, 0 ≤ b.w ∧ 0 ≤ b.h) :
    0 ≤ totalArea boxes := by
  induction boxes with
  | nil => exact le_refl 0
  | cons b rest ih =>
    have hb := h b (List.mem_cons_self b rest)
    have hr := ih fun c hc => h c (List.mem_cons_of_mem _ hc)
    unfold totalArea
    have : 0 ≤ b.h * b.w := mul_nonneg hb.2 hb.1
    linarith

theorem f64Max_nonneg : (0 : ℚ) ≤ f64Max := by
  rw [f64Max_eq_pow]
  positivity

theorem newBoxes_conds (items : List (ℚ × ℚ))
    (hfin : ∀ p ∈ items, 0 ≤ p.1 ∧ p.1 ≤ f64Max ∧ 0 ≤ p.2 ∧ p.2 ≤ f64Max) :
    ∀ b ∈ sortDesc (items.enum.map fun p =>
      ({ id := p.1, w := p.2.1, h := p.2.2, x := none, y := none } : Box)),
      0 ≤ b.w ∧ 0 ≤ b.h ∧ b.x = none ∧ b.y = none := by
  intro b hb
  obtain ⟨q, hq, hw, hh, hx, hy⟩ :=
    mem_newBoxes_spec items b ((sortDesc_perm _).mem_iff.mp hb)
  obtain ⟨h1, _, h3, _⟩ := hfin q hq
  exact ⟨hw ▸ h1, hh ▸ h3, hx, hy⟩

theorem initial_GoodRects (boxes : List Box) (hta : 0 ≤ totalArea boxes) :
    GoodRects { spaces := [{ w := startWidth boxes, h := f64Max, x := 0, y := 0 }],
                width := 0, height := 0 } [] := by
  constructor
  · intro r hr
    have : r = { x := 0, y := 0, w := startWidth boxes, h := f64Max } := by
      simpa [stateRects, placedRects, Space.rect] using hr
    rw [this]
    exact ⟨le_refl 0, le_refl 0, startWidth_nonneg boxes hta, f64Max_nonneg⟩
  · simp [stateRects, placedRects]

/-- The geometric invariant holds of the final state of `Layout::new`. -/
theorem layout_new_good (items : List (ℚ × ℚ))
    (hfin : ∀ p ∈ items, 0 ≤ p.1 ∧ p.1 ≤ f64Max ∧ 0 ≤ p.2 ∧ p.2 ≤ f64Max) :
    ∃ st : PackState, GoodRects st (Layout.new items).items := by
  set boxes := items.enum.map fun p =>
    ({ id := p.1, w := p.2.1, h := p.2.2, x := none, y := none } : Box) with hboxes
  have hta : 0 ≤ totalArea boxes := by
    apply totalArea_nonneg
    intro b hb
    obtain ⟨q, hq, hw, hh, _, _⟩ := mem_newBoxes_spec items b hb
    obtain ⟨h1, _, h3, _⟩ := hfin q hq
    exact ⟨hw ▸ h1, hh ▸ h3⟩
  have hG := packAll_good (sortDesc boxes)
    { spaces := [{ w := startWidth boxes, h := f64Max, x := 0, y := 0 }],
      width := 0, height := 0 } []
    (newBoxes_conds items hfin) (initial_GoodRects boxes hta)
  exact ⟨_, by simpa using hG⟩

/-- **C1.** No two distinct placed boxes overlap: for every pair of distinct
boxes in `layout.items` whose coordinates were assigned, the interiors of
the closed axis-aligned rectangles `[x, x+w] × [y, y+h]` (as subsets of
`ℝ × ℝ`) are disjoint — touching edges allowed. -/
theorem no_two_placed_boxes_overlap (items : List (ℚ × ℚ))
    (hfin : ∀ p ∈ items, 0 ≤ p.1 ∧ p.1 ≤ f64Max ∧ 0 ≤ p.2 ∧ p.2 ≤ f64Max) :
    List.Pairwise (fun b1 b2 : Box => ∀ x1 y1 x2 y2,
      b1.x = some x1 → b1.y = some y1 → b2.x = some x2 → b2.y = some y2 →
      Disjoint (interior (closedRect { x := x1, y := y1, w := b1.w, h := b1.h }))
               (interior (closedRect { x := x2, y := y2, w := b2.w, h := b2.h })))
      (Layout.new items).items := by
  obtain ⟨stF, hG⟩ := layout_new_good items hfin
  have hpw : List.Pairwise interiorsDisjoint (placedRects (Layout.new items).items) :=
    List.Pairwise.sublist (List.sublist_append_left _ _) hG.2
  have hlift := pairwise_of_pairwise_filterMap Box.rect? interiorsDisjoint
    (Layout.new items).items hpw
  refine hlift.imp ?_
  intro b1 b2 h12 x1 y1 x2 y2 hx1 hy1 hx2 hy2
  have hr1 : { x := x1, y := y1, w := b1.w, h := b1.h } ∈ b1.rect? := by
    rw [rect?_some hx1 hy1]; rfl
  have hr2 : { x := x2, y := y2, w := b2.w, h := b2.h } ∈ b2.rect? := by
    rw [rect?_some hx2 hy2]; rfl
  exact interiorsDisjoint_spec (h12 _ hr1 _ hr2)

/-- Witness for `no_two_placed_boxes_overlap` at `[(10,10), (10,10)]`. -/
theorem no_two_placed_boxes_overlap_witness :
    (∀ p ∈ [((10 : ℚ), (10 : ℚ)), ((10 : ℚ), (10 : ℚ))],
      0 ≤ p.1 ∧ p.1 ≤ f64Max ∧ 0 ≤ p.2 ∧ p.2 ≤ f64Max) ∧
    List.Pairwise (fun b1 b2 : Box => ∀ x1 y1 x2 y2,
      b1.x = some x1 → b1.y = some y1 → b2.x = some x2 → b2.y = some y2 →
      Disjoint (interior (closedRect { x := x1, y := y1, w := b1.w, h := b1.h }))
               (interior (closedRect { x := x2, y := y2, w := b2.w, h := b2.h })))
      (Layout.new [((10 : ℚ), (10 : ℚ)), ((10 : ℚ), (10 : ℚ))]).items := by
  have hp : ∀ p ∈ [((10 : ℚ), (10 : ℚ)), ((10 : ℚ), (10 : ℚ))],
      0 ≤ p.1 ∧ p.1 ≤ f64Max ∧ 0 ≤ p.2 ∧ p.2 ≤ f64Max := by
    intro p hp
    rcases List.mem_cons.mp hp with rfl | h2
    · norm_num [f64Max]
    · rcases List.mem_cons.mp h2 with rfl | h3
      · norm_num [f64Max]
      · simp at h3
  exact ⟨hp, no_two_placed_boxes_overlap _ hp⟩

theorem layout_bounds_shared (items : List (ℚ × ℚ))
    (hfin : ∀ p ∈ items, 0 ≤ p.1 ∧ p.1 ≤ f64Max ∧ 0 ≤ p.2 ∧ p.2 ≤ f64Max) :
    (∀ b ∈ (Layout.new items).items, ∀ x, b.x = some x →
        0 ≤ x ∧ x + b.w ≤ (Layout.new items).width) ∧
    (∀ b ∈ (Layout.new items).items, ∀ y, b.y = some y →
        0 ≤ y ∧ y + b.h ≤ (Layout.new items).height) ∧
    (Layout.new items).width = ((Layout.new items).items.filterMap xwOf).foldl max 0 ∧
    (Layout.new items).height = ((Layout.new items).items.filterMap yhOf).foldl max 0 := by
  set boxes := items.enum.map fun p =>
    ({ id := p.1, w := p.2.1, h := p.2.2, x := none, y := none } : Box) with hboxes
  set st0 : PackState :=
    { spaces := [{ w := startWidth boxes, h := f64Max, x := 0, y := 0 }],
      width := 0, height := 0 } with hst0
  have hitems : (Layout.new items).items = (packAll st0 (sortDesc boxes)).2 := rfl
  have hwidth : (Layout.new items).width = (packAll st0 (sortDesc boxes)).1.width := rfl
  have hheight : (Layout.new items).height = (packAll st0 (sortDesc boxes)).1.height := rfl
  have hconds := newBoxes_conds items hfin
  have hwf : (Layout.new items).width =
      ((Layout.new items).items.filterMap xwOf).foldl max 0 := by
    rw [hwidth, hitems]
    exact packAll_width (sortDesc boxes) st0 fun b hb => (hconds b hb).2.2.1
  have hhf : (Layout.new items).height =
      ((Layout.new items).items.filterMap yhOf).foldl max 0 := by
    rw [hheight, hitems]
    exact packAll_height (sortDesc boxes) st0 fun b hb => (hconds b hb).2.2.2
  obtain ⟨stF, hG⟩ := layout_new_good items hfin
  have hcoup := packAll_coupled (sortDesc boxes) st0 fun b hb =>
    ⟨(hconds b hb).2.2.1, (hconds b hb).2.2.2⟩
  refine ⟨?_, ?_, hwf, hhf⟩
  · intro b hb x hx
    constructor
    · -- 0 ≤ x, via the nonnegativity of the box's rectangle
      rcases hcoup b (hitems ▸ hb) with ⟨hxn, _⟩ | ⟨xb, yb, hxb, hyb⟩
      · rw [hx] at hxn; cases hxn
      · have hxx : xb = x := by rw [hx] at hxb; exact (Option.some_inj.mp hxb).symm
        subst hxx
        have hrect : { x := xb, y := yb, w := b.w, h := b.h } ∈
            stateRects stF (Layout.new items).items := by
          apply List.mem_append_left
          exact List.mem_filterMap.mpr ⟨b, hb, by rw [rect?_some hxb hyb]⟩
        exact (hG.1 _ hrect).1
    · -- x + b.w ≤ width
      rw [hwf]
      apply mem_le_foldl_max
      exact List.mem_filterMap.mpr ⟨b, hb, by unfold xwOf; rw [hx]; rfl⟩
  · intro b hb y hy
    constructor
    · rcases hcoup b (hitems ▸ hb) with ⟨_, hyn⟩ | ⟨xb, yb, hxb, hyb⟩
      · rw [hy] at hyn; cases hyn
      · have hyy : yb = y := by rw [hy] at hyb; exact (Option.some_inj.mp hyb).symm
        subst hyy
        have hrect : { x := xb, y := yb, w := b.w, h := b.h } ∈
            stateRects stF (Layout.new items).items := by
          apply List.mem_append_left
          exact List.mem_filterMap.mpr ⟨b, hb, by rw [rect?_some hxb hyb]⟩
        exact (hG.1 _ hrect).2.1
    · rw [hhf]
      apply mem_le_foldl_max
      exact List.mem_filterMap.mpr ⟨b, hb, by unfold yhOf; rw [hy]; rfl⟩

/-- **C2.** Containment and tight extents: every placed box lies inside
`[0, width] × [0, height]`, and the returned `width`/`height` are exactly
the running maxima of the placed `x + w` / `y + h` (starting from `0`, so
`0` for an empty input) — not the `start_width` estimate. -/
theorem containment_and_tight_extents (items : List (ℚ × ℚ))
    (hfin : ∀ p ∈ items, 0 ≤ p.1 ∧ p.1 ≤ f64Max ∧ 0 ≤ p.2 ∧ p.2 ≤ f64Max) :
    (∀ b ∈ (Layout.new items).items, ∀ x, b.x = some x →
        0 ≤ x ∧ x + b.w ≤ (Layout.new items).width) ∧
    (∀ b ∈ (Layout.new items).items, ∀ y, b.y = some y →
        0 ≤ y ∧ y + b.h ≤ (Layout.new items).height) ∧
    (Layout.new items).width = ((Layout.new items).items.filterMap xwOf).foldl max 0 ∧
    (Layout.new items).height = ((Layout.new items).items.filterMap yhOf).foldl max 0 :=
  layout_bounds_shared items hfin

/-- Witness for `containment_and_tight_extents` at `[(10, 10)]`. -/
theorem containment_and_tight_extents_witness :
    (∀ p ∈ [((10 : ℚ), (10 : ℚ))],
      0 ≤ p.1 ∧ p.1 ≤ f64Max ∧ 0 ≤ p.2 ∧ p.2 ≤ f64Max) ∧
    ((∀ b ∈ (Layout.new [((10 : ℚ), (10 : ℚ))]).items, ∀ x, b.x = some x →
        0 ≤ x ∧ x + b.w ≤ (Layout.new [((10 : ℚ), (10 : ℚ))]).width) ∧
     (∀ b ∈ (Layout.new [((10 : ℚ), (10 : ℚ))]).items, ∀ y, b.y = some y →
        0 ≤ y ∧ y + b.h ≤ (Layout.new [((10 : ℚ), (10 : ℚ))]).height) ∧
     (Layout.new [((10 : ℚ), (10 : ℚ))]).width =
       ((Layout.new [((10 : ℚ), (10 : ℚ))]).items.filterMap xwOf).foldl max 0 ∧
     (Layout.new [((10 : ℚ), (10 : ℚ))]).height =
       ((Layout.new [((10 : ℚ), (10 : ℚ))]).items.filterMap yhOf).foldl max 0) := by
  have hp : ∀ p ∈ [((10 : ℚ), (10 : ℚ))],
      0 ≤ p.1 ∧ p.1 ≤ f64Max ∧ 0 ≤ p.2 ∧ p.2 ≤ f64Max := by
    intro p hp
    rcases List.mem_cons.mp hp with rfl | h2
    · norm_num [f64Max]
    · simp at h2
  exact ⟨hp, containment_and_tight_extents _ hp⟩

/-! ### Scenario C (claim C6) -/

theorem ceilSqrt_scenario_c : ceilSqrt ((200 : ℚ) / (19 / 20)) = 15 := by
  apply ceilSqrt_unique
  · norm_num
  · norm_num
  · norm_num

theorem startWidth_scenario_c :
    startWidth [({ id := 0, w := 10, h := 10, x := none, y := none } : Box),
                { id := 1, w := 10, h := 10, x := none, y := none }] = 15 := by
  have hmw : maxWidth [({ id := 0, w := 10, h := 10, x := none, y := none } : Box),
      { id := 1, w := 10, h := 10, x := none, y := none }] = some (max 10 10) := rfl
  have hta : totalArea [({ id := 0, w := 10, h := 10, x := none, y := none } : Box),
      { id := 1, w := 10, h := 10, x := none, y := none }] = 200 := by
    norm_num [totalArea]
  simp only [startWidth, hmw, hta]
  rw [max_self]
  rw [if_neg (by norm_num)]
  rw [ceilSqrt_scenario_c]
  norm_num

/-- **C6.** Scenario C: for the input `[(10,10), (10,10)]` the computed
`start_width` is `max(ceil(sqrt(200/0.95)), 10) = 15`, and the returned
layout is `width = 10`, `height = 20`, `fill_ratio = 1`, with item 0 at
`(0, 0)` and item 1 at `(0, 10)`. -/
theorem scenario_two_equal_squares :
    startWidth [({ id := 0, w := 10, h := 10, x := none, y := none } : Box),
                { id := 1, w := 10, h := 10, x := none, y := none }] = 15 ∧
    Layout.new [((10 : ℚ), 10), ((10 : ℚ), 10)] =
      { width := 10, height := 20, fill_ratio := 1,
        items := [{ id := 0, w := 10, h := 10, x := some 0, y := some 0 },
                  { id := 1, w := 10, h := 10, x := some 0, y := some 10 }] } := by
  refine ⟨startWidth_scenario_c, ?_⟩
  norm_num [Layout.new, from_boxes, List.enum, startWidth_scenario_c, sortDesc, insertDesc,
    packAll, placeBox, lastFitIdx, fits, swapRemove, defaultSpace, totalArea, f64Max]

/-! ### The area bound (claim C7) -/

open MeasureTheory in
theorem volume_closedRect (r : Rect) :
    volume (closedRect r) = ENNReal.ofReal (r.w : ℝ) * ENNReal.ofReal (r.h : ℝ) := by
  unfold closedRect
  rw [Measure.volume_eq_prod ℝ ℝ, Measure.prod_prod, Real.volume_Icc, Real.volume_Icc]
  congr 1 <;> congr 1 <;> ring

open MeasureTheory in
theorem closedRect_inter_null {a b : Rect} (h : interiorsDisjoint a b) :
    volume (closedRect a ∩ closedRect b) = 0 := by
  rcases h with h | h | h | h | hsep
  · apply measure_mono_null Set.inter_subset_left
    rw [volume_closedRect]
    have : ENNReal.ofReal (a.w : ℝ) = 0 := by
      rw [ENNReal.ofReal_eq_zero]
      exact_mod_cast h
    rw [this, zero_mul]
  · apply measure_mono_null Set.inter_subset_left
    rw [volume_closedRect]
    have : ENNReal.ofReal (a.h : ℝ) = 0 := by
      rw [ENNReal.ofReal_eq_zero]
      exact_mod_cast h
    rw [this, mul_zero]
  · apply measure_mono_null Set.inter_subset_right
    rw [volume_closedRect]
    have : ENNReal.ofReal (b.w : ℝ) = 0 := by
      rw [ENNReal.ofReal_eq_zero]
      exact_mod_cast h
    rw [this, zero_mul]
  · apply measure_mono_null Set.inter_subset_right
    rw [volume_closedRect]
    have : ENNReal.ofReal (b.h : ℝ) = 0 := by
      rw [ENNReal.ofReal_eq_zero]
      exact_mod_cast h
    rw [this, mul_zero]
  · unfold closedRect
    rw [Set.prod_inter_prod, Measure.volume_eq_prod ℝ ℝ, Measure.prod_prod,
      Set.Icc_inter_Icc, Set.Icc_inter_Icc, Real.volume_Icc, Real.volume_Icc]
    rcases hsep with h | h | h | h
    · have hc : (a.x : ℝ) + (a.w : ℝ) ≤ (b.x : ℝ) := by exact_mod_cast h
      have : ENNReal.ofReal (min ((a.x : ℝ) + (a.w : ℝ)) ((b.x : ℝ) + (b.w : ℝ)) -
          max (a.x : ℝ) (b.x : ℝ)) = 0 := by
        rw [ENNReal.ofReal_eq_zero]
        have h1 : min ((a.x : ℝ) + (a.w : ℝ)) ((b.x : ℝ) + (b.w : ℝ)) ≤
            (a.x : ℝ) + (a.w : ℝ) := min_le_left _ _
        have h2 : (b.x : ℝ) ≤ max (a.x : ℝ) (b.x : ℝ) := le_max_right _ _
        linarith
      rw [this, zero_mul]
    · have hc : (b.x : ℝ) + (b.w : ℝ) ≤ (a.x : ℝ) := by exact_mod_cast h
      have : ENNReal.ofReal (min ((a.x : ℝ) + (a.w : ℝ)) ((b.x : ℝ) + (b.w : ℝ)) -
          max (a.x : ℝ) (b.x : ℝ)) = 0 := by
        rw [ENNReal.ofReal_eq_zero]
        have h1 : min ((a.x : ℝ) + (a.w : ℝ)) ((b.x : ℝ) + (b.w : ℝ)) ≤
            (b.x : ℝ) + (b.w : ℝ) := min_le_right _ _
        have h2 : (a.x : ℝ) ≤ max (a.x : ℝ) (b.x : ℝ) := le_max_left _ _
        linarith
      rw [this, zero_mul]
    · have hc : (a.y : ℝ) + (a.h : ℝ) ≤ (b.y : ℝ) := by exact_mod_cast h
      have : ENNReal.ofReal (min ((a.y : ℝ) + (a.h : ℝ)) ((b.y : ℝ) + (b.h : ℝ)) -
          max (a.y : ℝ) (b.y : ℝ)) = 0 := by
        rw [ENNReal.ofReal_eq_zero]
        have h1 : min ((a.y : ℝ) + (a.h : ℝ)) ((b.y : ℝ) + (b.h : ℝ)) ≤
            (a.y : ℝ) + (a.h : ℝ) := min_le_left _ _
        have h2 : (b.y : ℝ) ≤ max (a.y : ℝ) (b.y : ℝ) := le_max_right _ _
        linarith
      rw [this, mul_zero]
    · have hc : (b.y : ℝ) + (b.h : ℝ) ≤ (a.y : ℝ) := by exact_mod_cast h
      have : ENNReal.ofReal (min ((a.y : ℝ) + (a.h : ℝ)) ((b.y : ℝ) + (b.h : ℝ)) -
          max (a.y : ℝ) (b.y : ℝ)) = 0 := by
        rw [ENNReal.ofReal_eq_zero]
        have h1 : min ((a.y : ℝ) + (a.h : ℝ)) ((b.y : ℝ) + (b.h : ℝ)) ≤
            (b.y : ℝ) + (b.h : ℝ) := min_le_right _ _
        have h2 : (a.y : ℝ) ≤ max (a.y : ℝ) (b.y : ℝ) := le_max_left _ _
        linarith
      rw [this, mul_zero]

theorem list_map_sum_eq_fin_sum {α : Type _} {M : Type _} [AddCommMonoid M]
    (l : List α) (f : α → M) :
    (l.map f).sum = ∑ i : Fin l.length, f (l.get i) := by
  induction l with
  | nil => simp
  | cons a t ih =>
    rw [List.map_cons, List.sum_cons, ih]
    have h : ∑ i : Fin (a :: t).length, f ((a :: t).get i) =
        f ((a :: t).get ⟨0, Nat.succ_pos _⟩) +
          ∑ i : Fin t.length, f ((a :: t).get i.succ) :=
      Fin.sum_univ_succ fun i : Fin (a :: t).length => f ((a :: t).get i)
    rw [h]
    rfl

open MeasureTheory in
/-- Finitely many axis-aligned rectangles with pairwise disjoint interiors,
all inside `[0, W] × [0, H]`, together have area at most `W * H`. -/
theorem sum_area_le_of_disjoint (rs : List Rect) (W H : ℚ)
    (hnn : ∀ r ∈ rs, r.nonneg)
    (hcont : ∀ r ∈ rs, r.x + r.w ≤ W ∧ r.y + r.h ≤ H)
    (hW : 0 ≤ W) (hH : 0 ≤ H)
    (hpw : List.Pairwise interiorsDisjoint rs) :
    (rs.map fun r => r.w * r.h).sum ≤ W * H := by
  classical
  set S : Fin rs.length → Set (ℝ × ℝ) := fun i => closedRect (rs.get i) with hS
  have hget : ∀ i : Fin rs.length, rs.get i ∈ rs := fun i => rs.get_mem i.1 i.2
  have hmeas : ∀ i : Fin rs.length, i ∈ (Finset.univ : Finset (Fin rs.length)) →
      NullMeasurableSet (S i) volume := by
    intro i _
    exact (measurableSet_Icc.prod measurableSet_Icc).nullMeasurableSet
  have hae : (↑(Finset.univ : Finset (Fin rs.length)) : Set (Fin rs.length)).Pairwise
      (AEDisjoint volume on S) := by
    intro i _ j _ hij
    have hij' : interiorsDisjoint (rs.get i) (rs.get j) := by
      rcases lt_or_gt_of_ne hij with h | h
      · exact (List.pairwise_iff_get.mp hpw) i j h
      · exact interiorsDisjoint_symm ((List.pairwise_iff_get.mp hpw) j i h)
    exact closedRect_inter_null hij'
  have hsum := measure_biUnion_finset₀ hae hmeas
  have hsub : (⋃ i ∈ (Finset.univ : Finset (Fin rs.length)), S i) ⊆
      Set.Icc (0 : ℝ) (W : ℝ) ×ˢ Set.Icc (0 : ℝ) (H : ℝ) := by
    intro p hp
    simp only [Set.mem_iUnion] at hp
    obtain ⟨i, _, hpi⟩ := hp
    obtain ⟨⟨h1, h2⟩, h3, h4⟩ := hpi
    obtain ⟨hx0, hy0, hw0, hh0⟩ := hnn _ (hget i)
    obtain ⟨hxa, hya⟩ := hcont _ (hget i)
    constructor
    · constructor
      · have : (0 : ℝ) ≤ ((rs.get i).x : ℝ) := by exact_mod_cast hx0
        linarith
      · have : ((rs.get i).x : ℝ) + ((rs.get i).w : ℝ) ≤ (W : ℝ) := by exact_mod_cast hxa
        linarith
    · constructor
      · have : (0 : ℝ) ≤ ((rs.get i).y : ℝ) := by exact_mod_cast hy0
        linarith
      · have : ((rs.get i).y : ℝ) + ((rs.get i).h : ℝ) ≤ (H : ℝ) := by exact_mod_cast hya
        linarith
  have hle : volume (⋃ i ∈ (Finset.univ : Finset (Fin rs.length)), S i) ≤
      ENNReal.ofReal ((W : ℝ) * (H : ℝ)) := by
    refine le_trans (measure_mono hsub) ?_
    rw [Measure.volume_eq_prod ℝ ℝ, Measure.prod_prod, Real.volume_Icc, Real.volume_Icc]
    rw [← ENNReal.ofReal_mul (by linarith [(by exact_mod_cast hW : (0:ℝ) ≤ (W:ℝ))])]
    simp
  have hvols : ∀ i : Fin rs.length,
      volume (S i) = ENNReal.ofReal (((rs.get i).w * (rs.get i).h : ℚ) : ℝ) := by
    intro i
    rw [hS]
    rw [volume_closedRect]
    rw [← ENNReal.ofReal_mul (by exact_mod_cast (hnn _ (hget i)).2.2.1)]
    congr 1
    push_cast
    ring
  have hfin : ∑ i : Fin rs.length,
      ENNReal.ofReal (((rs.get i).w * (rs.get i).h : ℚ) : ℝ) ≤
      ENNReal.ofReal ((W : ℝ) * (H : ℝ)) := by
    calc ∑ i : Fin rs.length, ENNReal.ofReal (((rs.get i).w * (rs.get i).h : ℚ) : ℝ)
        = ∑ i in Finset.univ, volume (S i) := by
          refine Finset.sum_congr rfl ?_
          intro i _
          rw [hvols i]
      _ = volume (⋃ i ∈ (Finset.univ : Finset (Fin rs.length)), S i) := hsum.symm
      _ ≤ _ := hle
  have e1 : (((rs.map fun r => r.w * r.h).sum : ℚ) : ℝ) =
      ∑ i : Fin rs.length, (((rs.get i).w * (rs.get i).h : ℚ) : ℝ) := by
    rw [Rat.cast_list_sum, List.map_map,
      list_map_sum_eq_fin_sum rs ((fun q : ℚ => (q : ℝ)) ∘ fun r => r.w * r.h)]
    rfl
  have hofr : ENNReal.ofReal (((rs.map fun r => r.w * r.h).sum : ℚ) : ℝ) ≤
      ENNReal.ofReal ((W : ℝ) * (H : ℝ)) := by
    rw [e1]
    rw [ENNReal.ofReal_sum_of_nonneg ?hnn2]
    case hnn2 =>
      intro i _
      have h1 := (hnn _ (hget i)).2.2.1
      have h2 := (hnn _ (hget i)).2.2.2
      have : (0 : ℚ) ≤ (rs.get i).w * (rs.get i).h := mul_nonneg h1 h2
      exact_mod_cast this
    exact hfin
  have hWH : (0 : ℝ) ≤ (W : ℝ) * (H : ℝ) := by
    have h1 : (0 : ℝ) ≤ (W : ℝ) := by exact_mod_cast hW
    have h2 : (0 : ℝ) ≤ (H : ℝ) := by exact_mod_cast hH
    exact mul_nonneg h1 h2
  have hreal : (((rs.map fun r => r.w * r.h).sum : ℚ) : ℝ) ≤ (W : ℝ) * (H : ℝ) :=
    (ENNReal.ofReal_le_ofReal_iff hWH).mp hofr
  exact_mod_cast hreal

theorem rect?_inv {b : Box} {r : Rect} (h : b.rect? = some r) :
    ∃ x y, b.x = some x ∧ b.y = some y ∧
      r = { x := x, y := y, w := b.w, h := b.h } := by
  cases hx : b.x with
  | none => rw [rect?_none hx] at h; cases h
  | some x =>
    cases hy : b.y with
    | none =>
      have hn : b.rect? = none := by unfold Box.rect?; rw [hx, hy]
      rw [hn] at h; cases h
    | some y =>
      rw [rect?_some hx hy] at h
      exact ⟨x, y, rfl, rfl, (Option.some_inj.mp h).symm⟩

/-- The `total_area` computed by `from_boxes` over the freshly enumerated
boxes is the sum of `w * h` over the raw input items. -/
theorem totalArea_newBoxes (items : List (ℚ × ℚ)) :
    totalArea (items.enum.map fun p =>
      ({ id := p.1, w := p.2.1, h := p.2.2, x := none, y := none } : Box)) =
    (items.map fun p => p.1 * p.2).sum := by
  rw [totalArea_eq_sum, List.map_map]
  have e0 : ((fun b : Box => b.h * b.w) ∘ fun p : ℕ × ℚ × ℚ =>
      ({ id := p.1, w := p.2.1, h := p.2.2, x := none, y := none } : Box)) =
      fun p : ℕ × ℚ × ℚ => p.2.2 * p.2.1 := rfl
  rw [e0]
  have e1 : items.enum.map (fun p : ℕ × ℚ × ℚ => p.2.2 * p.2.1) =
      (items.enum.map Prod.snd).map fun q : ℚ × ℚ => q.2 * q.1 := by
    rw [List.map_map]; rfl
  rw [e1, List.enum_map_snd]
  have e2 : (fun q : ℚ × ℚ => q.2 * q.1) = fun p : ℚ × ℚ => p.1 * p.2 := by
    funext q; exact mul_comm _ _
  rw [e2]

/-- The `fill_ratio` field is literally the `total_area / (width * height)`
formula of `from_boxes`, guarded by `width != 0. && height != 0.`. -/
theorem fill_ratio_formula (items : List (ℚ × ℚ)) :
    (Layout.new items).fill_ratio =
      if (Layout.new items).width ≠ 0 ∧ (Layout.new items).height ≠ 0 then
        (items.map fun p => p.1 * p.2).sum /
          ((Layout.new items).width * (Layout.new items).height)
      else 1 := by
  rw [← totalArea_newBoxes items]
  rfl

/-- When every box has assigned coordinates, the placed rectangles carry
exactly the boxes' areas. -/
theorem placedRects_areas (l : List Box) (h : ∀ b ∈ l, b.x.isSome ∧ b.y.isSome) :
    ((placedRects l).map fun r => r.w * r.h) = l.map fun b => b.w * b.h := by
  induction l with
  | nil => rfl
  | cons b t ih =>
    obtain ⟨hx, hy⟩ := h b (List.mem_cons_self b t)
    obtain ⟨x, hx'⟩ := Option.isSome_iff_exists.mp hx
    obtain ⟨y, hy'⟩ := Option.isSome_iff_exists.mp hy
    have hr := rect?_some hx' hy'
    have e : placedRects (b :: t) =
        { x := x, y := y, w := b.w, h := b.h } :: placedRects t := by
      simp [placedRects, List.filterMap_cons, hr]
    rw [e, List.map_cons, List.map_cons,
      ih fun c hc => h c (List.mem_cons_of_mem b hc)]

/-- The sum of `w * h` over the output boxes equals the sum over the raw
input items (the placement loop only writes coordinates). -/
theorem output_area_sum (items : List (ℚ × ℚ)) :
    (((Layout.new items).items.map fun b => b.w * b.h)).sum =
      (items.map fun p => p.1 * p.2).sum := by
  have hp := from_boxes_proj_perm (items.enum.map fun p =>
    { id := p.1, w := p.2.1, h := p.2.2, x := none, y := none })
  have h1 := (hp.map fun t : ℕ × ℚ × ℚ => t.2.1 * t.2.2).sum_eq
  have e1 : (((Layout.new items).items.map proj).map
      fun t : ℕ × ℚ × ℚ => t.2.1 * t.2.2) =
      (Layout.new items).items.map fun b => b.w * b.h := by
    rw [List.map_map]; rfl
  have e2 : ((((items.enum.map fun p =>
      ({ id := p.1, w := p.2.1, h := p.2.2, x := none, y := none } : Box)).map
        proj).map fun t : ℕ × ℚ × ℚ => t.2.1 * t.2.2)) =
      items.map fun p => p.1 * p.2 := by
    rw [List.map_map, List.map_map]
    have e3 : items.enum.map (((fun t : ℕ × ℚ × ℚ => t.2.1 * t.2.2) ∘ proj) ∘ fun p =>
        ({ id := p.1, w := p.2.1, h := p.2.2, x := none, y := none } : Box)) =
        (items.enum.map Prod.snd).map fun q : ℚ × ℚ => q.1 * q.2 := by
      rw [List.map_map]; rfl
    rw [e3, List.enum_map_snd]
  have h2 : (((Layout.new items).items.map proj).map
      fun t : ℕ × ℚ × ℚ => t.2.1 * t.2.2).sum =
      ((((items.enum.map fun p =>
        ({ id := p.1, w := p.2.1, h := p.2.2, x := none, y := none } : Box)).map
          proj).map fun t : ℕ × ℚ × ℚ => t.2.1 * t.2.2)).sum := h1
  rw [e1, e2] at h2
  exact h2

/-- The geometric area bound: under the hypotheses that make every item
placeable, the fill ratio never exceeds `1`. -/
theorem fill_ratio_le_one_shared (items : List (ℚ × ℚ))
    (hfin : ∀ p ∈ items, 0 ≤ p.1 ∧ p.1 ≤ f64Max ∧ 0 ≤ p.2 ∧ p.2 ≤ f64Max)
    (hsum : (items.map fun p => p.2).sum < f64Max) :
    (Layout.new items).fill_ratio ≤ 1 := by
  obtain ⟨hbx, hby, hwf, hhf⟩ := layout_bounds_shared items hfin
  obtain ⟨stF, hG⟩ := layout_new_good items hfin
  have hplaced := all_items_placed_shared items hfin hsum
  have hW0 : 0 ≤ (Layout.new items).width := by
    rw [hwf]; exact le_foldl_max _ 0
  have hH0 : 0 ≤ (Layout.new items).height := by
    rw [hhf]; exact le_foldl_max _ 0
  have hnn : ∀ r ∈ placedRects (Layout.new items).items, r.nonneg := by
    intro r hr
    refine hG.1 r ?_
    unfold stateRects
    exact List.mem_append_left _ hr
  have hcont : ∀ r ∈ placedRects (Layout.new items).items,
      r.x + r.w ≤ (Layout.new items).width ∧
      r.y + r.h ≤ (Layout.new items).height := by
    intro r hr
    obtain ⟨b, hb, hrb⟩ := List.mem_filterMap.mp hr
    obtain ⟨x, y, hx, hy, rfl⟩ := rect?_inv hrb
    exact ⟨(hbx b hb x hx).2, (hby b hb y hy).2⟩
  have hpw : List.Pairwise interiorsDisjoint
      (placedRects (Layout.new items).items) :=
    List.Pairwise.sublist (List.sublist_append_left _ _) hG.2
  have hbound := sum_area_le_of_disjoint
    (placedRects (Layout.new items).items)
    (Layout.new items).width (Layout.new items).height
    hnn hcont hW0 hH0 hpw
  rw [placedRects_areas (Layout.new items).items hplaced, output_area_sum items]
    at hbound
  rw [fill_ratio_formula items]
  by_cases hWH : (Layout.new items).width ≠ 0 ∧ (Layout.new items).height ≠ 0
  · rw [if_pos hWH]
    have hWpos : 0 < (Layout.new items).width := lt_of_le_of_ne hW0 (Ne.symm hWH.1)
    have hHpos : 0 < (Layout.new items).height := lt_of_le_of_ne hH0 (Ne.symm hWH.2)
    rw [div_le_one (by positivity)]
    exact hbound
  · rw [if_neg hWH]

/-! ### An `f64` model with the IEEE-754 special values (for claim C7)

The exact model above carries every finite `f64` exactly, and is faithful
to the program on runs in which no floating-point rounding occurs.  The
area-bound part of C7 only fails at magnitudes where `f64` arithmetic
leaves that exact regime, so the counterexample below uses a second
embedding of the same source functions in which a double is a finite exact
value, one of the two infinities, or NaN.  Finite results are kept exactly
except that a result of magnitude at least `2^1024 - 2^970` (the
round-to-nearest-even overflow threshold `2^1023 * (2 - 2^-53)`) overflows
to the corresponding infinity; the special values follow the IEEE-754
rules exactly (signed zeros are not distinguished).  On the concrete run
proved below every finite intermediate result is exactly representable and
every other operation involves an infinity, an overflow, or NaN, so each
step of the run is governed by one of the exact rules. -/

/-- An `f64` value: NaN, `+inf`, `-inf`, or a finite value carried as its
exact rational. -/
inductive F64 where
  | nan : F64
  | inf : F64
  | ninf : F64
  | fin : ℚ → F64
deriving DecidableEq

/-- The smallest exact magnitude that rounds to infinity in
round-to-nearest-even: `2^1023 * (2 - 2^-53) = 2^1024 - 2^970`. -/
def ovThresh : ℚ := 2 ^ 1024 - 2 ^ 970

/-- Rounding of an exact finite result: overflow to an infinity, otherwise
the value itself (faithful whenever that value is representable). -/
def rnd (q : ℚ) : F64 :=
  if ovThresh ≤ q then F64.inf else if q ≤ -ovThresh then F64.ninf else F64.fin q

/-- IEEE-754 addition. -/
def F64.add : F64 → F64 → F64
  | nan, _ => nan
  | _, nan => nan
  | inf, ninf => nan
  | ninf, inf => nan
  | inf, _ => inf
  | _, inf => inf
  | ninf, _ => ninf
  | _, ninf => ninf
  | fin a, fin b => rnd (a + b)

/-- IEEE-754 subtraction. -/
def F64.sub : F64 → F64 → F64
  | nan, _ => nan
  | _, nan => nan
  | inf, inf => nan
  | ninf, ninf => nan
  | inf, _ => inf
  | ninf, _ => ninf
  | _, inf => ninf
  | _, ninf => inf
  | fin a, fin b => rnd (a - b)

/-- IEEE-754 multiplication (`0 * inf = NaN`). -/
def F64.mul : F64 → F64 → F64
  | nan, _ => nan
  | _, nan => nan
  | inf, inf => inf
  | inf, ninf => ninf
  | ninf, inf => ninf
  | ninf, ninf => inf
  | inf, fin b => if 0 < b then inf else if b < 0 then ninf else nan
  | fin a, inf => if 0 < a then inf else if a < 0 then ninf else nan
  | ninf, fin b => if 0 < b then ninf else if b < 0 then inf else nan
  | fin a, ninf => if 0 < a then ninf else if a < 0 then inf else nan
  | fin a, fin b => rnd (a * b)

/-- IEEE-754 division (`inf / inf = NaN`, `0 / 0 = NaN`, division by zero
gives an infinity; signed zeros are not distinguished). -/
def F64.div : F64 → F64 → F64
  | nan, _ => nan
  | _, nan => nan
  | inf, inf => nan
  | inf, ninf => nan
  | ninf, inf => nan
  | ninf, ninf => nan
  | inf, fin b => if 0 ≤ b then inf else ninf
  | ninf, fin b => if 0 ≤ b then ninf else inf
  | fin _, inf => fin 0
  | fin _, ninf => fin 0
  | fin a, fin b =>
    if b = 0 then (if a = 0 then nan else if 0 < a then inf else ninf)
    else rnd (a / b)

/-- `f64::max`: if one operand is NaN the other is returned. -/
def F64.fmax : F64 → F64 → F64
  | nan, b => b
  | a, nan => a
  | inf, _ => inf
  | _, inf => inf
  | ninf, b => b
  | a, ninf => a
  | fin a, fin b => fin (max a b)

/-- The `f64` `<` comparison: false whenever an operand is NaN. -/
def F64.lt : F64 → F64 → Bool
  | nan, _ => false
  | _, nan => false
  | ninf, ninf => false
  | ninf, _ => true
  | _, ninf => false
  | inf, _ => false
  | _, inf => true
  | fin a, fin b => decide (a < b)

/-- The `f64` `<=` comparison: false whenever an operand is NaN. -/
def F64.le : F64 → F64 → Bool
  | nan, _ => false
  | _, nan => false
  | ninf, _ => true
  | _, ninf => false
  | inf, inf => true
  | _, inf => true
  | inf, _ => false
  | fin a, fin b => decide (a ≤ b)

/-- The `f64` `==` comparison: false whenever an operand is NaN. -/
def F64.beq : F64 → F64 → Bool
  | nan, _ => false
  | _, nan => false
  | inf, inf => true
  | ninf, ninf => true
  | fin a, fin b => a == b
  | _, _ => false

/-- `x.sqrt().ceil()` as the source composes the two calls.  On NaN, an
infinity, or a negative argument both `f64` functions are value-exact and
are modelled exactly; on a finite non-negative argument the composite is
modelled as the exact `ceil (sqrt x)` — the same idealization as
`startWidth` in the exact model above (the theorems below never evaluate
this branch). -/
def F64.sqrtCeil : F64 → F64
  | nan => nan
  | ninf => nan
  | inf => inf
  | fin a => if a < 0 then nan else fin (ceilSqrt a)

/-- `Box` from potpack2.rs over `F64` coordinates: the NaN sentinel is NaN
itself. -/
structure EBox where
  id : ℕ
  w : F64
  h : F64
  x : F64
  y : F64
deriving DecidableEq

/-- `Space` from potpack2.rs over `F64`. -/
structure ESpace where
  w : F64
  h : F64
  x : F64
  y : F64
deriving DecidableEq

/-- The loop state of `from_boxes` over `F64`. -/
structure EState where
  spaces : List ESpace
  width : F64
  height : F64
deriving DecidableEq

/-- `Layout` from potpack2.rs over `F64`. -/
structure ELayout where
  width : F64
  height : F64
  fill_ratio : F64
  items : List EBox
deriving DecidableEq

/-- `boxes.iter().map(|b| b.h * b.w).sum()`: a left fold from `0.0`. -/
def etotalArea (boxes : List EBox) : F64 :=
  boxes.foldl (fun acc b => F64.add acc (F64.mul b.h b.w)) (F64.fin 0)

/-- `boxes.iter().map(|b| b.w).fold(f64::NEG_INFINITY, f64::max)`. -/
def emaxWidth (boxes : List EBox) : F64 :=
  boxes.foldl (fun m b => F64.fmax m b.w) F64.ninf

/-- The height-descending insertion step, as `insertDesc` in the exact
model (the comparator never sees NaN on the runs below). -/
def einsertDesc (b : EBox) : List EBox → List EBox
  | [] => [b]
  | c :: rest => if F64.le c.h b.h then b :: c :: rest else c :: einsertDesc b rest

/-- Height-descending stable insertion sort, as `sortDesc`. -/
def esortDesc : List EBox → List EBox
  | [] => []
  | b :: rest => einsertDesc b (esortDesc rest)

/-- `if b.w > space.w || b.h > space.h { continue; }` with `f64` compares
(an infinity in the space accommodates everything, NaN nothing). -/
def efits (b : EBox) (s : ESpace) : Bool :=
  !(F64.lt s.w b.w || F64.lt s.h b.h)

/-- The index the backwards scan stops at, as `lastFitIdx`. -/
def elastFitIdx (b : EBox) : List ESpace → Option ℕ
  | [] => none
  | s :: rest =>
    match elastFitIdx b rest with
    | some j => some (j + 1)
    | none => if efits b s then some 0 else none

/-- Placeholder for the (never used) out-of-range `getD` default. -/
def edefaultSpace : ESpace := { w := F64.fin 0, h := F64.fin 0, x := F64.fin 0, y := F64.fin 0 }

/-- One iteration of the placement loop of `from_boxes`, over `F64`: the
same branch structure as `placeBox`, with IEEE comparisons and arithmetic. -/
def eplaceBox (st : EState) (b : EBox) : EState × EBox :=
  match elastFitIdx b st.spaces with
  | none => (st, b)
  | some i =>
    let s := st.spaces.getD i edefaultSpace
    let b' : EBox := { b with x := s.x, y := s.y }
    let height' := F64.fmax st.height (F64.add s.y b.h)
    let width' := F64.fmax st.width (F64.add s.x b.w)
    let spaces' :=
      if F64.beq b.w s.w && F64.beq b.h s.h then
        swapRemove st.spaces i
      else if F64.beq b.h s.h then
        st.spaces.set i { w := F64.sub s.w b.w, h := s.h, x := F64.add s.x b.w, y := s.y }
      else if F64.beq b.w s.w then
        st.spaces.set i { w := s.w, h := F64.sub s.h b.h, x := s.x, y := F64.add s.y b.h }
      else
        (st.spaces.set i { w := s.w, h := F64.sub s.h b.h, x := s.x, y := F64.add s.y b.h }) ++
          [{ w := F64.sub s.w b.w, h := b.h, x := F64.add s.x b.w, y := s.y }]
    ({ spaces := spaces', width := width', height := height' }, b')

/-- The whole placement loop over `F64`, as `packAll`. -/
def epackAll : EState → List EBox → EState × List EBox
  | st, [] => (st, [])
  | st, b :: rest =>
    let p := eplaceBox st b
    let q := epackAll p.1 rest
    (q.1, p.2 :: q.2)

/-- `Layout::from_boxes` over `F64`: `total_area` and `max_width` folds,
`start_width = (total_area / 0.95).sqrt().ceil().max(max_width)`, one
initial space of height `f64::MAX`, the placement loop, and the
`width != 0. && height != 0.` fill-ratio guard (`!=` is IEEE:
true on NaN). -/
def efrom_boxes (boxes : List EBox) : ELayout :=
  let ta := etotalArea boxes
  let mw := emaxWidth boxes
  let sorted := esortDesc boxes
  let sw := F64.fmax (F64.sqrtCeil (F64.div ta (F64.fin (19 / 20)))) mw
  let st0 : EState :=
    { spaces := [{ w := sw, h := F64.fin f64Max, x := F64.fin 0, y := F64.fin 0 }],
      width := F64.fin 0, height := F64.fin 0 }
  let r := epackAll st0 sorted
  let fill :=
    if !(F64.beq r.1.width (F64.fin 0)) && !(F64.beq r.1.height (F64.fin 0)) then
      F64.div ta (F64.mul r.1.width r.1.height)
    else F64.fin 1
  { width := r.1.width, height := r.1.height, fill_ratio := fill, items := r.2 }

/-- `Layout::new` over `F64`: enumerate, keep the dimensions, write the NaN
sentinel into the coordinates. -/
def eLayout_new (items : List (F64 × F64)) : ELayout :=
  efrom_boxes (items.enum.map fun p =>
    { id := p.1, w := p.2.1, h := p.2.2, x := F64.nan, y := F64.nan })

/-- The counterexample input `[(f64::MAX, f64::MAX), (f64::MAX, f64::MAX)]`
in the `F64` model. -/
def ceInput : List (F64 × F64) :=
  [(F64.fin f64Max, F64.fin f64Max), (F64.fin f64Max, F64.fin f64Max)]

/-- The unamended area-bound part of C7 fails on the code as written: on
the non-empty input `[(f64::MAX, f64::MAX), (f64::MAX, f64::MAX)]`, whose
dimensions are all finite and non-negative, `total_area` overflows to
`+inf`, so `start_width` becomes `+inf`; both items are then placed (item
1 at `(f64::MAX, 0)`), the returned `width` is `+inf` (from
`f64::MAX + f64::MAX` overflowing), `height` is `f64::MAX`, and
`fill_ratio = inf / (inf * f64::MAX)` is NaN — for which the claimed
comparison `fill_ratio <= 1.0` is false.  Every finite operation on this
run is exact, so the `F64` run is the program's run. -/
theorem fill_ratio_exceeds_one_counterexample :
    ceInput ≠ [] ∧
    (∀ p ∈ ceInput, ∃ a b : ℚ, p.1 = F64.fin a ∧ p.2 = F64.fin b ∧
      0 ≤ a ∧ a ≤ f64Max ∧ 0 ≤ b ∧ b ≤ f64Max) ∧
    eLayout_new ceInput =
      { width := F64.inf, height := F64.fin f64Max, fill_ratio := F64.nan,
        items := [{ id := 0, w := F64.fin f64Max, h := F64.fin f64Max,
                    x := F64.fin 0, y := F64.fin 0 },
                  { id := 1, w := F64.fin f64Max, h := F64.fin f64Max,
                    x := F64.fin f64Max, y := F64.fin 0 }] } ∧
    F64.le (eLayout_new ceInput).fill_ratio (F64.fin 1) = false := by
  have h3 : eLayout_new ceInput =
      { width := F64.inf, height := F64.fin f64Max, fill_ratio := F64.nan,
        items := [{ id := 0, w := F64.fin f64Max, h := F64.fin f64Max,
                    x := F64.fin 0, y := F64.fin 0 },
                  { id := 1, w := F64.fin f64Max, h := F64.fin f64Max,
                    x := F64.fin f64Max, y := F64.fin 0 }] } := by
    norm_num [ceInput, eLayout_new, efrom_boxes, esortDesc, einsertDesc, epackAll,
      eplaceBox, elastFitIdx, efits, etotalArea, emaxWidth, edefaultSpace, swapRemove,
      F64.add, F64.sub, F64.mul, F64.div, F64.fmax, F64.sqrtCeil, F64.lt, F64.le,
      F64.beq, rnd, ovThresh, f64Max, List.enum, max_self, max_eq_right, max_eq_left]
  refine ⟨by simp [ceInput], ?_, h3, by rw [h3]; rfl⟩
  intro p hp
  have hM : (0 : ℚ) ≤ f64Max := by norm_num [f64Max]
  simp only [ceInput, List.mem_cons, List.not_mem_nil, or_false] at hp
  rcases hp with rfl | rfl
  · exact ⟨f64Max, f64Max, rfl, rfl, hM, le_refl _, hM, le_refl _⟩
  · exact ⟨f64Max, f64Max, rfl, rfl, hM, le_refl _, hM, le_refl _⟩

/-- **C7, amended.**  The returned `fill_ratio` always equals
`total_area / (width * height)` when both returned extents are nonzero and
`1.0` otherwise; and, on runs in which the `f64` arithmetic is exact (the
regime of this model), the `fill_ratio ≤ 1.0` bound holds for every
non-empty input of finite, non-negative dimensions *whose heights sum to
less than `f64::MAX`*.  (Unqualified, the `≤ 1.0` part fails in the
program: on `[(f64::MAX, f64::MAX), (f64::MAX, f64::MAX)]` the f64
`total_area` overflows to `+inf`, the returned `width` is `+inf`, and
`fill_ratio` is NaN, for which `fill_ratio ≤ 1.0` is false — see
`fill_ratio_exceeds_one_counterexample`, stated in the `F64` model with
the IEEE special values.) -/
theorem fill_ratio_formula_and_bound (items : List (ℚ × ℚ)) :
    ((Layout.new items).fill_ratio =
      if (Layout.new items).width ≠ 0 ∧ (Layout.new items).height ≠ 0 then
        (items.map fun p => p.1 * p.2).sum /
          ((Layout.new items).width * (Layout.new items).height)
      else 1) ∧
    (items ≠ [] →
      (∀ p ∈ items, 0 ≤ p.1 ∧ p.1 ≤ f64Max ∧ 0 ≤ p.2 ∧ p.2 ≤ f64Max) →
      (items.map fun p => p.2).sum < f64Max →
      (Layout.new items).fill_ratio ≤ 1) :=
  ⟨fill_ratio_formula items,
   fun _ hfin hsum => fill_ratio_le_one_shared items hfin hsum⟩

/-- Witness for `fill_ratio_formula_and_bound` at the concrete input
`[(10, 10)]`. -/
theorem fill_ratio_formula_and_bound_witness :
    (([((10 : ℚ), (10 : ℚ))] : List (ℚ × ℚ)) ≠ [] ∧
     (∀ p ∈ [((10 : ℚ), (10 : ℚ))],
       0 ≤ p.1 ∧ p.1 ≤ f64Max ∧ 0 ≤ p.2 ∧ p.2 ≤ f64Max) ∧
     ([((10 : ℚ), (10 : ℚ))].map fun p => p.2).sum < f64Max) ∧
    (Layout.new [((10 : ℚ), (10 : ℚ))]).fill_ratio ≤ 1 := by
  have hne : ([((10 : ℚ), (10 : ℚ))] : List (ℚ × ℚ)) ≠ [] := by simp
  have hfin : ∀ p ∈ [((10 : ℚ), (10 : ℚ))],
      0 ≤ p.1 ∧ p.1 ≤ f64Max ∧ 0 ≤ p.2 ∧ p.2 ≤ f64Max := by
    intro p hp
    rcases List.mem_cons.mp hp with rfl | h
    · norm_num [f64Max]
    · simp at h
  have hsum : ([((10 : ℚ), (10 : ℚ))].map fun p => p.2).sum < f64Max := by
    norm_num [f64Max]
  exact ⟨⟨hne, hfin, hsum⟩,
    (fill_ratio_formula_and_bound [((10 : ℚ), (10 : ℚ))]).2 hne hfin hsum⟩

end Potpack
